import Mathlib

/-!
# Matrix views over a contiguous buffer

A shallow embedding of `header.h` (namespace `ranges`: `numeric_view`,
`matrix_view`, `transpose`; then `to_string`, the formatter, `save` and `load`)
and of the element loop of `AlgebraProjekt.cpp`.

Modelling conventions.

* Storage is a `List Int`; a pointer or iterator is a position in it.  Views
  own nothing: they are descriptors (positions and sizes), and every operation
  that writes through a view takes the storage and returns the new storage.
* An access outside the storage, a violated precondition of `std::mdspan`
  indexing and a division without a value are undefined behaviour in C++; the
  embedding returns `none` there.
* Elements are C++ `int` values, 32 bits wide: sums, differences and products
  are reduced to 32-bit two's complement, division truncates toward zero and has
  no value for a zero divisor and for `INT_MIN / -1`.
* `std::size_t` products are reduced modulo `2 ^ 64`.
* Text is a `List Char`; a `std::stringstream` is its character sequence with
  the put position and the fail bit.
-/

namespace ranges

/-! ## Definitions -/

/-- The two layout policies accepted by `matrix_view`: `std::layout_right`
(row major) and `std::layout_left` (column major). -/
inductive LayoutPolicy where
  | layout_right
  | layout_left
  deriving DecidableEq

/-- Arithmetic of `std::size_t`: unsigned, 64 bits wide. -/
def size_t (n : Nat) : Nat := n % 2 ^ 64

/-- The stride of dimension `r` under a layout policy, as `std::layout_right::mapping`
and `std::layout_left::mapping` define it: the product of the extents after `r` for
`layout_right`, the product of the extents before `r` for `layout_left`. -/
def layout_stride (lp : LayoutPolicy) (exts : List Nat) (r : Nat) : Nat :=
  match lp with
  | LayoutPolicy.layout_right => (exts.drop (r + 1)).foldr (fun e acc => e * acc) 1
  | LayoutPolicy.layout_left => (exts.take r).foldr (fun e acc => e * acc) 1

/-- The layout mapping of a rank-2 `std::mdspan`: the offset of the element with
multidimensional index `(i, j)`, the sum of the indices weighted by the strides,
computed in the index type `std::size_t`. -/
def layout_mapping (lp : LayoutPolicy) (exts : List Nat) (i j : Nat) : Nat :=
  size_t (i * layout_stride lp exts 0 + j * layout_stride lp exts 1)

/-- A `numeric_view` is a `std::ranges::subrange`: the pair of iterators
`[begin, end)`, here positions in the storage. -/
structure numeric_view where
  begin_ : Nat
  end_ : Nat
  deriving DecidableEq

/-- A `matrix_view<T, LP>` has two bases: the `std::mdspan` (data handle, the two
extents, the layout policy `LP`) and the `std::span` (data pointer and size). -/
structure matrix_view where
  data_handle : Nat
  extent0 : Nat
  extent1 : Nat
  layout : LayoutPolicy
  span_data : Nat
  span_size : Nat
  deriving DecidableEq

/-- Subtraction of iterators: `std::ranges::size` of the subrange. -/
def numeric_view.size (v : numeric_view) : Nat := v.end_ - v.begin_

/-- Indexing of the subrange, `v[n]`, which is `begin()[n]`. -/
def numeric_view.op_index (mem : List Int) (v : numeric_view) (n : Nat) : Option Int :=
  if n < v.size then mem[v.begin_ + n]? else none

/-- The elements a view ranges over, in order; `none` when the range is not
inside the storage. -/
def numeric_view.elements (mem : List Int) (v : numeric_view) : Option (List Int) :=
  if v.begin_ ≤ v.end_ ∧ v.end_ ≤ mem.length then
    some ((mem.drop v.begin_).take v.size)
  else none

/-- The least value of the 32-bit `int`. -/
def INT_MIN : Int := -2147483648

/-- The greatest value of the 32-bit `int`. -/
def INT_MAX : Int := 2147483647

/-- The values of type `int`. -/
def is_int (x : Int) : Prop := INT_MIN ≤ x ∧ x ≤ INT_MAX

instance (x : Int) : Decidable (is_int x) := by
  unfold is_int
  infer_instance

/-- Reduction of a mathematical integer to the 32-bit two's complement `int`
with the same residue modulo `2 ^ 32`: what the machine leaves in an `int` when a
sum, a difference or a product overflows. -/
def int_wrap (x : Int) : Int := (x + 2147483648) % 4294967296 - 2147483648

/-- The C++ expression `a + b` on `int`: the sum in 32 bits. -/
def int_add (a b : Int) : Option Int := some (int_wrap (a + b))

/-- The C++ expression `a - b` on `int`: the difference in 32 bits. -/
def int_sub (a b : Int) : Option Int := some (int_wrap (a - b))

/-- The C++ expression `a * b` on `int`: the product in 32 bits. -/
def int_mul (a b : Int) : Option Int := some (int_wrap (a * b))

/-- The C++ expression `a / b` on `int`: the quotient truncated toward zero.
Division by zero and the division of `INT_MIN` by `-1`, whose quotient is not an
`int`, have no value: the machine traps. -/
def int_div (a b : Int) : Option Int :=
  if b = 0 ∨ (a = INT_MIN ∧ b = -1) then none else some (Int.tdiv a b)

/-- The loop `for (auto&& [a, b] : std::views::zip(*this, v)) a op= b;`.
`n` is the number of elements left in `*this`, `pos` the position of the next
one, the list is what is left of `v`.  The loop ends as soon as either range is
exhausted. -/
def zip_loop (op : Int → Int → Option Int) :
    Nat → Nat → List Int → List Int → Option (List Int)
  | 0, _, _, mem => some mem
  | _ + 1, _, [], mem => some mem
  | n + 1, pos, b :: bs, mem =>
    match mem[pos]? with
    | none => none
    | some a =>
      match op a b with
      | none => none
      | some r => zip_loop op n (pos + 1) bs (mem.set pos r)

/-- The algorithm `std::ranges::transform(r, result, f)`: for each of the `n`
elements from `first` on, in order, `*result = f(*first)`. -/
def transform (f : Int → Option Int) :
    Nat → Nat → Nat → List Int → Option (List Int)
  | 0, _, _, mem => some mem
  | n + 1, first, result, mem =>
    match mem[first]? with
    | none => none
    | some val =>
      match f val with
      | none => none
      | some r =>
        if result < mem.length then
          transform f n (first + 1) (result + 1) (mem.set result r)
        else none

/-- Coordinate-wise addition, `operator+=(const _R& v)`; returns `*this`. -/
def numeric_view.op_add_assign (mem : List Int) (self : numeric_view) (v : List Int) :
    Option (List Int × numeric_view) :=
  (zip_loop int_add self.size self.begin_ v mem).map (fun mem' => (mem', self))

/-- Coordinate-wise subtraction, `operator-=(const _R& v)`; returns `*this`. -/
def numeric_view.op_sub_assign (mem : List Int) (self : numeric_view) (v : List Int) :
    Option (List Int × numeric_view) :=
  (zip_loop int_sub self.size self.begin_ v mem).map (fun mem' => (mem', self))

/-- Coordinate-wise multiplication, `operator*=(const _R& v)`; returns `*this`. -/
def numeric_view.op_mul_assign (mem : List Int) (self : numeric_view) (v : List Int) :
    Option (List Int × numeric_view) :=
  (zip_loop int_mul self.size self.begin_ v mem).map (fun mem' => (mem', self))

/-- Coordinate-wise division, `operator/=(const _R& v)`; returns `*this`. -/
def numeric_view.op_div_assign (mem : List Int) (self : numeric_view) (v : List Int) :
    Option (List Int × numeric_view) :=
  (zip_loop int_div self.size self.begin_ v mem).map (fun mem' => (mem', self))

/-- Scalar addition to each coordinate, `operator+=(scalar)`: a transform of the
view onto its own `begin()`; returns `*this`. -/
def numeric_view.op_add_assign_scalar (mem : List Int) (self : numeric_view) (scalar : Int) :
    Option (List Int × numeric_view) :=
  (transform (fun val => int_add val scalar) self.size self.begin_ self.begin_ mem).map
    (fun mem' => (mem', self))

/-- Scalar subtraction from each coordinate, `operator-=(scalar)`. -/
def numeric_view.op_sub_assign_scalar (mem : List Int) (self : numeric_view) (scalar : Int) :
    Option (List Int × numeric_view) :=
  (transform (fun val => int_sub val scalar) self.size self.begin_ self.begin_ mem).map
    (fun mem' => (mem', self))

/-- Scalar multiplication to each coordinate, `operator*=(scalar)`. -/
def numeric_view.op_mul_assign_scalar (mem : List Int) (self : numeric_view) (scalar : Int) :
    Option (List Int × numeric_view) :=
  (transform (fun val => int_mul val scalar) self.size self.begin_ self.begin_ mem).map
    (fun mem' => (mem', self))

/-- Scalar division from each coordinate, `operator/=(scalar)`. -/
def numeric_view.op_div_assign_scalar (mem : List Int) (self : numeric_view) (scalar : Int) :
    Option (List Int × numeric_view) :=
  (transform (fun val => int_div val scalar) self.size self.begin_ self.begin_ mem).map
    (fun mem' => (mem', self))

/-- The constructor of `matrix_view` from a pointer: the mdspan base is built
from `(data, rows, columns)`, the span base from `(data, rows * columns)`. -/
def matrix_view.ctor (data rows columns : Nat) (layout : LayoutPolicy) : matrix_view :=
  { data_handle := data
    extent0 := rows
    extent1 := columns
    layout := layout
    span_data := data
    span_size := size_t (rows * columns) }

/-- The member `extent(r)` of the mdspan base, for `r` below the rank 2. -/
def matrix_view.extent (m : matrix_view) (r : Nat) : Nat :=
  if r = 0 then m.extent0 else m.extent1

/-- The member `data()` of the span base. -/
def matrix_view.data (m : matrix_view) : Nat := m.span_data

/-- The member `begin()` of the span base. -/
def matrix_view.begin_ (m : matrix_view) : Nat := m.span_data

/-- The member `end()` of the span base. -/
def matrix_view.end_ (m : matrix_view) : Nat := m.span_data + m.span_size

/-- Two-dimensional access `m[i, j]` of the mdspan base (`at(i, j)` in the
specification): the element at the offset the layout mapping gives.  Its
precondition is that `(i, j)` is an index within the extents. -/
def matrix_view.at_ (mem : List Int) (m : matrix_view) (i j : Nat) : Option Int :=
  if i < m.extent 0 ∧ j < m.extent 1 then
    mem[m.data_handle + layout_mapping m.layout [m.extent 0, m.extent 1] i j]?
  else none

/-- The member `operator[](std::size_t i)`: depending on the layout, the i-th row
or the i-th column, as a `numeric_view` over
`[begin() + i * dim, begin() + (i + 1) * dim)`. -/
def matrix_view.op_index (m : matrix_view) (i : Nat) : numeric_view :=
  let extent := if m.layout = LayoutPolicy.layout_right then 1 else 0
  let dim := m.extent extent
  { begin_ := m.begin_ + size_t (i * dim)
    end_ := m.begin_ + size_t ((i + 1) * dim) }

/-- The function `transpose`: a view of the other layout policy built from
`m.data()`, `m.extent(0)` and `m.extent(1)`. -/
def transpose (m : matrix_view) : matrix_view :=
  match m.layout with
  | LayoutPolicy.layout_right =>
    matrix_view.ctor m.data (m.extent 0) (m.extent 1) LayoutPolicy.layout_left
  | LayoutPolicy.layout_left =>
    matrix_view.ctor m.data (m.extent 0) (m.extent 1) LayoutPolicy.layout_right

end ranges

/-- The loop of `main`, `for (auto& row : m) { row -= 2; }`, with the constant
as a parameter.  The range of `m` is that of its span base, so `row` is bound to
one `int` of the storage after the other, from `begin()` to `end()`, and
`row -= k` is the subtraction of `int`. -/
def main_loop (k : Int) : Nat → Nat → List Int → Option (List Int)
  | 0, _, mem => some mem
  | n + 1, pos, mem =>
    match mem[pos]? with
    | none => none
    | some row =>
      match ranges.int_sub row k with
      | none => none
      | some r => main_loop k n (pos + 1) (mem.set pos r)

/-- The element loop of `main` run on a view. -/
def main_subtract (mem : List Int) (m : ranges.matrix_view) (k : Int) : Option (List Int) :=
  main_loop k m.span_size m.begin_ mem

/-- The row-by-row reading of the scalar broadcast, built from the operators of
the header: the statement `m[i] -= k` executed for `n` consecutive slices
`m[i]`, `m[i + 1]`, ... in turn.  It is compared with `main_subtract`. -/
def sub_each_slice (m : ranges.matrix_view) (k : Int) :
    Nat → Nat → List Int → Option (List Int)
  | 0, _, mem => some mem
  | n + 1, i, mem =>
    match ranges.numeric_view.op_sub_assign_scalar mem (m.op_index i) k with
    | none => none
    | some (mem', _) => sub_each_slice m k n (i + 1) mem'

/-- The decimal text of an `int`, as `std::to_string(x)` and `out << x` produce it:
the digits, after a minus sign when the value is negative. -/
def std_to_string (x : Int) : List Char :=
  if x < 0 then '-' :: Nat.toDigits 10 x.natAbs else Nat.toDigits 10 x.toNat

/-- A `std::stringstream` as far as `to_string` uses it: the character sequence
`str()`, the put position and the fail bit. -/
structure stringstream where
  str : List Char
  pos : Nat
  fail : Bool
  deriving DecidableEq

/-- Unformatted insertion of one character, `out << ch`: it is written at the put
position, over the character there or after the last one; nothing happens on a
stream that has failed. -/
def stringstream.put (out : stringstream) (ch : Char) : stringstream :=
  if out.fail then out
  else if out.pos < out.str.length then
    { out with str := out.str.set out.pos ch, pos := out.pos + 1 }
  else
    { out with str := out.str ++ [ch], pos := out.pos + 1 }

/-- Insertion of a character sequence, one character after the other. -/
def stringstream.write (out : stringstream) (s : List Char) : stringstream :=
  s.foldl stringstream.put out

/-- The characters `out << std::setw(w) << x` inserts for an `int`: the decimal
text, right-adjusted and filled with blanks to at least `w` characters, never cut. -/
def int_field (w : Nat) (x : Int) : List Char :=
  List.replicate (w - (std_to_string x).length) ' ' ++ std_to_string x

/-- The insertion `out << std::setw(w) << x` of an `int`. -/
def stringstream.put_int (out : stringstream) (w : Nat) (x : Int) : stringstream :=
  out.write (int_field w x)

/-- The call `out.seekp(off, std::ios_base::end)`: the put position becomes the
end of the sequence plus `off`; a position outside the sequence sets the fail bit. -/
def stringstream.seekp_end (out : stringstream) (off : Int) : stringstream :=
  if out.fail then out
  else if 0 ≤ (out.str.length : Int) + off ∧ (out.str.length : Int) + off ≤ out.str.length then
    { out with pos := ((out.str.length : Int) + off).toNat }
  else
    { out with fail := true }

/-- The inner loop of `to_string`, over the columns `j`, `j + 1`, ... of row `i`,
`n` of them: each element `m[i][j]` is inserted with width 7 and followed by the
column separator; `max_width` is kept up to date. -/
def to_string_columns (mem : List Int) (m : ranges.matrix_view) (column_separator : Char)
    (i : Nat) : Nat → Nat → stringstream → Nat → Option (stringstream × Nat)
  | 0, _, out, max_width => some (out, max_width)
  | n + 1, j, out, max_width =>
    match (m.op_index i).op_index mem j with
    | none => none
    | some x =>
      to_string_columns mem m column_separator i n (j + 1)
        ((out.put_int 7 x).put column_separator)
        (max max_width (std_to_string x).length)

/-- The outer loop of `to_string`, over the rows `i`, `i + 1`, ..., `n` of them:
the columns of the row, then `std::endl` when the row separator is the line
break and the row separator otherwise. -/
def to_string_rows (mem : List Int) (m : ranges.matrix_view)
    (column_separator row_separator : Char) :
    Nat → Nat → stringstream → Nat → Option (stringstream × Nat)
  | 0, _, out, max_width => some (out, max_width)
  | n + 1, i, out, max_width =>
    match to_string_columns mem m column_separator i (m.extent 1) 0 out max_width with
    | none => none
    | some (out', max_width') =>
      to_string_rows mem m column_separator row_separator n (i + 1)
        (if row_separator = '\n' then out'.put '\n' else out'.put row_separator)
        max_width'

/-- The function `to_string(m, column_separator, row_separator)`.  For
`layout_right`: the two loops on an empty stream, then, when the row separator is
not the line break, `seekp(-1, end)` and one more row separator; the result is
`out.str()` and `max_width` is dropped.  For `layout_left`: the same function on
`transpose(m)`. -/
def to_string (mem : List Int) (m : ranges.matrix_view)
    (column_separator row_separator : Char) : Option (List Char) :=
  if m.layout = ranges.LayoutPolicy.layout_right then
    match to_string_rows mem m column_separator row_separator (m.extent 0) 0
        { str := [], pos := 0, fail := false } 0 with
    | none => none
    | some (out, _) =>
      some (if row_separator ≠ '\n' then
          (out.seekp_end (-1)).put row_separator
        else out).str
  else
    to_string mem (ranges.transpose m) column_separator row_separator
termination_by (if m.layout = ranges.LayoutPolicy.layout_right then 0 else 1)
decreasing_by
  have h : (ranges.transpose m).layout = ranges.LayoutPolicy.layout_right := by
    unfold ranges.transpose
    cases hm : m.layout
    · contradiction
    · rfl
  simp [h, *]

/-- The specialisation `std::formatter<matrix_view<T, LP>, char>`: its two
members with their default initialisers. -/
structure formatter where
  column_separator : Char := ','
  row_separator : Char := '\n'
  deriving DecidableEq

/-- The loop of `formatter::parse` over the parse context from `pos` on: it runs
up to the end or the first closing brace, the character met at count `i = 0`
becomes the column separator, the one met at count `i = 1` the row separator;
`i` is a `std::size_t`.  The result is the formatter and the position reached. -/
def formatter.parse_loop : List Char → Nat → Nat → formatter → formatter × Nat
  | [], _, pos, f => (f, pos)
  | ch :: rest, i, pos, f =>
    if ch = '}' then (f, pos)
    else
      formatter.parse_loop rest (ranges.size_t (i + 1)) (pos + 1)
        { column_separator := if i = 0 then ch else f.column_separator
          row_separator := if i = 1 then ch else f.row_separator }

/-- The member `parse(ctx)`, on the characters from `ctx.begin()` to `ctx.end()`. -/
def formatter.parse (f : formatter) (ctx : List Char) : formatter × Nat :=
  formatter.parse_loop ctx 0 0 f

/-- The member `format(m, ctx)`: the text of `to_string` with the separators of
the formatter, appended to the output of the context. -/
def formatter.format (f : formatter) (mem : List Int) (m : ranges.matrix_view)
    (out : List Char) : Option (List Char) :=
  match to_string mem m f.column_separator f.row_separator with
  | none => none
  | some text => some (out ++ text)

/-- A file system as far as `save` meets it: the directories and the regular
files with their contents.  A path is the list of its components, relative to
the current directory; permissions are not modelled. -/
structure file_system where
  directories : List (List (List Char))
  files : List (List (List Char) × List Char)
  deriving DecidableEq

/-- The member `parent_path()` of a path: the path without its last component,
the empty path for a single component. -/
def parent_path (file : List (List Char)) : List (List Char) := file.dropLast

/-- The function `std::filesystem::create_directories(p)`: every directory along
`p` that is missing is created.  It throws, here `none`, for the empty path and
when a component along `p` is a regular file. -/
def create_directories (fs : file_system) (p : List (List Char)) : Option file_system :=
  if p = [] then none
  else if (p.inits.tail).any (fun q => fs.files.any (fun f => f.1 == q)) then none
  else
    some { fs with
      directories := fs.directories
        ++ (p.inits.tail).filter (fun q => !(fs.directories.contains q)) }

/-- How a call of `save` ends: with the exception of `create_directories`, with
the file written and the message on `std::cout`, or with the file not opened and
the message on `std::cerr`. -/
inductive save_result where
  | threw
  | saved (fs : file_system)
  | failed (fs : file_system)
  deriving DecidableEq

/-- The function `save(m, file)` with its default separators: the directories
of `file.parent_path()` are created, then the output file is opened, which
fails when the path names a directory; when it is open the text
`to_string(m, ',', '\n')` becomes the content of the file. -/
def save (fs : file_system) (mem : List Int) (m : ranges.matrix_view)
    (file : List (List Char)) : Option save_result :=
  match create_directories fs (parent_path file) with
  | none => some save_result.threw
  | some fs' =>
    if fs'.directories.contains file then some (save_result.failed fs')
    else
      match to_string mem m ',' '\n' with
      | none => none
      | some text =>
        some (save_result.saved
          { fs' with files := (file, text) :: fs'.files.filter (fun f => !(f.1 == file)) })

/-- The function `load(path)`: the vector `{1, 2, 3, 4, 5, 6}` and the 2x3
`layout_right` view of it, whatever the path. -/
def load (_ : List (List Char)) : List Int × ranges.matrix_view :=
  ([1, 2, 3, 4, 5, 6], ranges.matrix_view.ctor 0 2 3 ranges.LayoutPolicy.layout_right)

/-- A contiguous range such as `std::vector<int>`: its `data()` and its `size()`. -/
structure contiguous_range where
  data : Nat
  size : Nat
  deriving DecidableEq

/-- The constructor of `matrix_view` from a contiguous range: both bases are
built from `data.data()`, `rows` and `columns`. -/
def ranges.matrix_view.ctor_range (data : contiguous_range) (rows columns : Nat)
    (layout : ranges.LayoutPolicy) : ranges.matrix_view :=
  { data_handle := data.data
    extent0 := rows
    extent1 := columns
    layout := layout
    span_data := data.data
    span_size := ranges.size_t (rows * columns) }

/-- The positions a range-based `for` over a view visits: from `begin()` to
`end()` of the span base, one `int` at a time. -/
def ranges.matrix_view.range_for (m : ranges.matrix_view) : List Nat :=
  List.range' m.begin_ m.span_size

/-! ## Auxiliary facts -/

open ranges

theorem linear_index_lt {R C i j : Nat} (hi : i < R) (hj : j < C) : i * C + j < R * C := by
  have h : (i + 1) * C ≤ R * C := Nat.mul_le_mul_right C hi
  have h2 : (i + 1) * C = i * C + C := by ring
  omega

theorem slice_end_le {R C i : Nat} (hi : i < R) : (i + 1) * C ≤ R * C :=
  Nat.mul_le_mul_right C hi

theorem size_t_of_lt {n : Nat} (h : n < 2 ^ 64) : size_t n = n := by
  unfold size_t
  exact Nat.mod_eq_of_lt h

theorem getElem?_storage (pre buf post : List Int) (k : Nat) (hk : k < buf.length) :
    (pre ++ buf ++ post)[pre.length + k]? = buf[k]? := by
  rw [List.append_assoc, List.getElem?_append_right (by omega)]
  simp only [Nat.add_sub_cancel_left]
  exact List.getElem?_append_left hk

theorem mapping_layout_right (R C i j : Nat) (h : i * C + j < 2 ^ 64) :
    layout_mapping LayoutPolicy.layout_right [R, C] i j = i * C + j := by
  simp only [layout_mapping, layout_stride, List.drop_succ_cons, List.drop_zero, List.drop_nil,
    List.foldr_cons, List.foldr_nil, Nat.mul_one]
  exact size_t_of_lt h

theorem mapping_layout_left (R C i j : Nat) (h : j * R + i < 2 ^ 64) :
    layout_mapping LayoutPolicy.layout_left [R, C] i j = j * R + i := by
  simp only [layout_mapping, layout_stride, List.take_zero, List.take_succ_cons,
    List.foldr_cons, List.foldr_nil, Nat.mul_one]
  rw [Nat.add_comm]
  exact size_t_of_lt h

/-! ## Two-dimensional access and slices -/

theorem at_of_storage (pre buf post : List Int) (R C i j : Nat)
    (hbuf : R * C ≤ buf.length) (hmem : (pre ++ buf ++ post).length < 2 ^ 64)
    (hi : i < R) (hj : j < C) :
    (i * C + j < buf.length ∧
      (matrix_view.ctor pre.length R C LayoutPolicy.layout_right).at_
        (pre ++ buf ++ post) i j = buf[i * C + j]?) ∧
    (j * R + i < buf.length ∧
      (matrix_view.ctor pre.length R C LayoutPolicy.layout_left).at_
        (pre ++ buf ++ post) i j = buf[j * R + i]?) := by
  have hlen : buf.length < 2 ^ 64 := by
    simp only [List.length_append] at hmem
    omega
  have h1 : i * C + j < buf.length := lt_of_lt_of_le (linear_index_lt hi hj) hbuf
  have h2 : j * R + i < buf.length := by
    have := linear_index_lt hj hi
    rw [Nat.mul_comm C R] at this
    omega
  refine ⟨⟨h1, ?_⟩, ⟨h2, ?_⟩⟩
  · simp only [matrix_view.at_, matrix_view.ctor, matrix_view.extent]
    simp only [if_true, hi, hj, and_self, one_ne_zero, if_false]
    rw [mapping_layout_right R C i j (by omega)]
    exact getElem?_storage pre buf post _ h1
  · simp only [matrix_view.at_, matrix_view.ctor, matrix_view.extent]
    simp only [if_true, hi, hj, and_self, one_ne_zero, if_false]
    rw [mapping_layout_left R C i j (by omega)]
    exact getElem?_storage pre buf post _ h2

/-- C1: in a view with `R` rows and `C` columns over a buffer, `at(i, j)` for
`i < R`, `j < C` is the buffer element at linear index `i * C + j` when the
layout is row major and at linear index `j * R + i` when it is column major;
both indices lie inside the buffer.  The buffer `buf` is stored after `pre`, in
a storage that fits the address space. -/
theorem at_linear_index (pre buf post : List Int) (R C i j : Nat)
    (hbuf : R * C ≤ buf.length) (hmem : (pre ++ buf ++ post).length < 2 ^ 64)
    (hi : i < R) (hj : j < C) :
    (i * C + j < buf.length ∧
      (matrix_view.ctor pre.length R C LayoutPolicy.layout_right).at_
        (pre ++ buf ++ post) i j = buf[i * C + j]?) ∧
    (j * R + i < buf.length ∧
      (matrix_view.ctor pre.length R C LayoutPolicy.layout_left).at_
        (pre ++ buf ++ post) i j = buf[j * R + i]?) :=
  at_of_storage pre buf post R C i j hbuf hmem hi hj

/-- Witness of C1: the buffer `[1,2,3,4,5,6]` viewed column major as 2x3 has
`at(0, 1) = 3`, the element at linear index `1 * 2 + 0`. -/
theorem at_linear_index_witness :
    (2 * 3 ≤ [1, 2, 3, 4, 5, 6].length ∧ ([] ++ [1, 2, 3, 4, 5, 6] ++ []).length < 2 ^ 64 ∧
      0 < 2 ∧ 1 < 3) ∧
    (matrix_view.ctor 0 2 3 LayoutPolicy.layout_left).at_ [1, 2, 3, 4, 5, 6] 0 1 = some 3 ∧
    (matrix_view.ctor 0 2 3 LayoutPolicy.layout_right).at_ [1, 2, 3, 4, 5, 6] 0 1 = some 2 :=
  ⟨by decide,
   (at_linear_index [] [1, 2, 3, 4, 5, 6] [] 2 3 0 1 (by decide) (by decide) (by decide)
      (by decide)).2.2,
   (at_linear_index [] [1, 2, 3, 4, 5, 6] [] 2 3 0 1 (by decide) (by decide) (by decide)
      (by decide)).1.2⟩

theorem op_index_layout_right (d R C i : Nat) (h : (i + 1) * C < 2 ^ 64) :
    (matrix_view.ctor d R C LayoutPolicy.layout_right).op_index i
      = { begin_ := d + i * C, end_ := d + (i * C + C) } := by
  have h0 : i * C < 2 ^ 64 := lt_of_le_of_lt (Nat.mul_le_mul_right C (Nat.le_succ i)) h
  have e : (i + 1) * C = i * C + C := by ring
  simp only [matrix_view.op_index, matrix_view.ctor, matrix_view.extent, matrix_view.begin_,
    if_true, one_ne_zero, if_false, size_t_of_lt h, size_t_of_lt h0]
  rw [e]

theorem op_index_layout_left (d R C i : Nat) (h : (i + 1) * R < 2 ^ 64) :
    (matrix_view.ctor d R C LayoutPolicy.layout_left).op_index i
      = { begin_ := d + i * R, end_ := d + (i * R + R) } := by
  have h0 : i * R < 2 ^ 64 := lt_of_le_of_lt (Nat.mul_le_mul_right R (Nat.le_succ i)) h
  have e : (i + 1) * R = i * R + R := by ring
  simp only [matrix_view.op_index, matrix_view.ctor, matrix_view.extent, matrix_view.begin_,
    if_true, if_false, size_t_of_lt h, size_t_of_lt h0, reduceCtorEq]
  rw [e]

theorem subrange_size (d a n : Nat) :
    numeric_view.size { begin_ := d + a, end_ := d + (a + n) } = n := by
  simp only [numeric_view.size]
  omega

theorem subrange_elements (pre buf post : List Int) (a n : Nat) (h : a + n ≤ buf.length) :
    numeric_view.elements (pre ++ buf ++ post)
      { begin_ := pre.length + a, end_ := pre.length + (a + n) }
      = some ((buf.drop a).take n) := by
  have hlen : pre.length + (a + n) ≤ (pre ++ buf ++ post).length := by
    simp only [List.length_append]
    omega
  have hle : pre.length + a ≤ pre.length + (a + n) := by omega
  rw [numeric_view.elements, if_pos ⟨hle, hlen⟩, subrange_size]
  rw [List.append_assoc, List.drop_append, List.drop_append_of_le_length (by omega),
    List.take_append_of_le_length (by rw [List.length_drop]; omega)]

theorem subrange_op_index (pre buf post : List Int) (a n j : Nat) (h : a + n ≤ buf.length)
    (hj : j < n) :
    numeric_view.op_index (pre ++ buf ++ post)
      { begin_ := pre.length + a, end_ := pre.length + (a + n) } j = buf[a + j]? := by
  rw [numeric_view.op_index, subrange_size, if_pos hj]
  simp only [Nat.add_assoc]
  exact getElem?_storage pre buf post _ (by omega)

/-- C2: `operator[](i)` is layout-aware.  On a row-major `R x C` view and `i < R`
it is the view of the `C` buffer positions `i * C .. i * C + C - 1`, and
`m[i][j] = m.at(i, j)` for all `j < C`.  On a column-major `R x C` view and
`k < C` it is the view of the `R` buffer positions `k * R .. k * R + R - 1`, and
`m[k][j] = m.at(j, k)` for all `j < R`. -/
theorem op_index_slice (pre buf post : List Int) (R C i k : Nat)
    (hbuf : R * C ≤ buf.length) (hmem : (pre ++ buf ++ post).length < 2 ^ 64)
    (hi : i < R) (hk : k < C) :
    ((matrix_view.ctor pre.length R C LayoutPolicy.layout_right).op_index i
        = { begin_ := pre.length + i * C, end_ := pre.length + (i * C + C) } ∧
      ((matrix_view.ctor pre.length R C LayoutPolicy.layout_right).op_index i).size = C ∧
      ((matrix_view.ctor pre.length R C LayoutPolicy.layout_right).op_index i).elements
        (pre ++ buf ++ post) = some ((buf.drop (i * C)).take C) ∧
      ∀ j, j < C →
        i * C + j < buf.length ∧
        ((matrix_view.ctor pre.length R C LayoutPolicy.layout_right).op_index i).op_index
          (pre ++ buf ++ post) j = buf[i * C + j]? ∧
        ((matrix_view.ctor pre.length R C LayoutPolicy.layout_right).op_index i).op_index
          (pre ++ buf ++ post) j
          = (matrix_view.ctor pre.length R C LayoutPolicy.layout_right).at_
              (pre ++ buf ++ post) i j) ∧
    ((matrix_view.ctor pre.length R C LayoutPolicy.layout_left).op_index k
        = { begin_ := pre.length + k * R, end_ := pre.length + (k * R + R) } ∧
      ((matrix_view.ctor pre.length R C LayoutPolicy.layout_left).op_index k).size = R ∧
      ((matrix_view.ctor pre.length R C LayoutPolicy.layout_left).op_index k).elements
        (pre ++ buf ++ post) = some ((buf.drop (k * R)).take R) ∧
      ∀ j, j < R →
        k * R + j < buf.length ∧
        ((matrix_view.ctor pre.length R C LayoutPolicy.layout_left).op_index k).op_index
          (pre ++ buf ++ post) j = buf[k * R + j]? ∧
        ((matrix_view.ctor pre.length R C LayoutPolicy.layout_left).op_index k).op_index
          (pre ++ buf ++ post) j
          = (matrix_view.ctor pre.length R C LayoutPolicy.layout_left).at_
              (pre ++ buf ++ post) j k) := by
  have hlen : buf.length < 2 ^ 64 := by
    simp only [List.length_append] at hmem
    omega
  have hr : i * C + C ≤ buf.length := by
    have := slice_end_le (C := C) hi
    have e : (i + 1) * C = i * C + C := by ring
    omega
  have hc : k * R + R ≤ buf.length := by
    have := slice_end_le (C := R) hk
    have e : (k + 1) * R = k * R + R := by ring
    rw [Nat.mul_comm C R] at this
    omega
  have er : (i + 1) * C < 2 ^ 64 := by
    have e : (i + 1) * C = i * C + C := by ring
    omega
  have ec : (k + 1) * R < 2 ^ 64 := by
    have e : (k + 1) * R = k * R + R := by ring
    omega
  rw [op_index_layout_right _ _ _ _ er, op_index_layout_left _ _ _ _ ec]
  refine ⟨⟨rfl, subrange_size _ _ _, subrange_elements pre buf post _ _ hr, ?_⟩,
    ⟨rfl, subrange_size _ _ _, subrange_elements pre buf post _ _ hc, ?_⟩⟩
  · intro j hj
    have hat := (at_of_storage pre buf post R C i j hbuf hmem hi hj).1
    refine ⟨hat.1, subrange_op_index pre buf post _ _ j hr hj, ?_⟩
    rw [subrange_op_index pre buf post _ _ j hr hj, hat.2]
  · intro j hj
    have hat := (at_of_storage pre buf post R C j k hbuf hmem hj hk).2
    refine ⟨hat.1, subrange_op_index pre buf post _ _ j hc hj, ?_⟩
    rw [subrange_op_index pre buf post _ _ j hc hj, hat.2]

/-- Witness of C2: the buffer `[1,2,3,4,5,6]` viewed row major as 2x3 has
row 0 = `[1,2,3]` and row 1 = `[4,5,6]`. -/
theorem op_index_slice_witness :
    (2 * 3 ≤ [1, 2, 3, 4, 5, 6].length ∧ ([] ++ [1, 2, 3, 4, 5, 6] ++ []).length < 2 ^ 64) ∧
    ((matrix_view.ctor 0 2 3 LayoutPolicy.layout_right).op_index 0).elements
      [1, 2, 3, 4, 5, 6] = some [1, 2, 3] ∧
    ((matrix_view.ctor 0 2 3 LayoutPolicy.layout_right).op_index 1).elements
      [1, 2, 3, 4, 5, 6] = some [4, 5, 6] :=
  ⟨by decide,
   (op_index_slice [] [1, 2, 3, 4, 5, 6] [] 2 3 0 0 (by decide) (by decide) (by decide)
      (by decide)).1.2.2.1,
   (op_index_slice [] [1, 2, 3, 4, 5, 6] [] 2 3 1 0 (by decide) (by decide) (by decide)
      (by decide)).1.2.2.1⟩

/-! ## Transpose -/

theorem transpose_ctor (d R C : Nat) (lp : LayoutPolicy) :
    transpose (matrix_view.ctor d R C lp)
      = matrix_view.ctor d R C
          (match lp with
           | LayoutPolicy.layout_right => LayoutPolicy.layout_left
           | LayoutPolicy.layout_left => LayoutPolicy.layout_right) := by
  cases lp <;> rfl

/-- On a square view the transposed view reads `m.at(j, i)` at `(i, j)`: with
`R = C` the two linear indices `j * R + i` and `j * C + i` coincide. -/
theorem transpose_at_square (mem : List Int) (d N i j : Nat) (lp : LayoutPolicy)
    (hi : i < N) (hj : j < N) :
    (transpose (matrix_view.ctor d N N lp)).at_ mem i j
      = (matrix_view.ctor d N N lp).at_ mem j i := by
  rw [transpose_ctor]
  cases lp <;>
    simp [matrix_view.at_, matrix_view.ctor, matrix_view.extent, layout_mapping,
      layout_stride, hi, hj, Nat.add_comm]

/-- C3, evaluated on the row-major 2x3 view of `[1,2,3,4,5,6]` at `(i, j) = (0, 1)`:
both accesses are within the extents, `transpose(m).at(0, 1)` is the element at
linear index `1 * 2 + 0`, which is 3, and `m.at(1, 0)` is the element at linear
index `1 * 3 + 0`, which is 4. -/
theorem transpose_at_non_square :
    (transpose (matrix_view.ctor 0 2 3 LayoutPolicy.layout_right)).at_ [1, 2, 3, 4, 5, 6] 0 1
      = some 3 ∧
    (matrix_view.ctor 0 2 3 LayoutPolicy.layout_right).at_ [1, 2, 3, 4, 5, 6] 1 0 = some 4 ∧
    (transpose (matrix_view.ctor 0 2 3 LayoutPolicy.layout_right)).at_ [1, 2, 3, 4, 5, 6] 0 1
      ≠ (matrix_view.ctor 0 2 3 LayoutPolicy.layout_right).at_ [1, 2, 3, 4, 5, 6] 1 0 := by
  decide

/-- C4: transposing twice gives back the view: the same layout policy, the same
extents, the same buffer, hence the same value of `at(i, j)` at every index and
over every storage. -/
theorem transpose_transpose (d R C : Nat) (lp : LayoutPolicy) :
    transpose (transpose (matrix_view.ctor d R C lp)) = matrix_view.ctor d R C lp ∧
    (transpose (transpose (matrix_view.ctor d R C lp))).layout = lp ∧
    (transpose (transpose (matrix_view.ctor d R C lp))).extent 0 = R ∧
    (transpose (transpose (matrix_view.ctor d R C lp))).extent 1 = C ∧
    (transpose (transpose (matrix_view.ctor d R C lp))).data = d ∧
    ∀ (mem : List Int) (i j : Nat),
      (transpose (transpose (matrix_view.ctor d R C lp))).at_ mem i j
        = (matrix_view.ctor d R C lp).at_ mem i j := by
  have h : transpose (transpose (matrix_view.ctor d R C lp)) = matrix_view.ctor d R C lp := by
    rw [transpose_ctor, transpose_ctor]
    cases lp <;> rfl
  rw [h]
  refine ⟨rfl, rfl, rfl, rfl, rfl, fun _ _ _ => rfl⟩

/-- C5: the transposed view is a view over the same buffer (the same data pointer
and the same span size), with `extent(0)` and `extent(1)` numerically those of `m`
and with the opposite layout policy.  The function neither reads nor writes the
storage: over every storage the span of the result ranges over the same
elements as the span of `m`. -/
theorem transpose_frame (d R C : Nat) (lp : LayoutPolicy) :
    (transpose (matrix_view.ctor d R C lp)).data = (matrix_view.ctor d R C lp).data ∧
    (transpose (matrix_view.ctor d R C lp)).data_handle = d ∧
    (transpose (matrix_view.ctor d R C lp)).span_size
      = (matrix_view.ctor d R C lp).span_size ∧
    (transpose (matrix_view.ctor d R C lp)).extent 0 = (matrix_view.ctor d R C lp).extent 0 ∧
    (transpose (matrix_view.ctor d R C lp)).extent 1 = (matrix_view.ctor d R C lp).extent 1 ∧
    (transpose (matrix_view.ctor d R C lp)).extent 0 = R ∧
    (transpose (matrix_view.ctor d R C lp)).extent 1 = C ∧
    (lp = LayoutPolicy.layout_right →
      (transpose (matrix_view.ctor d R C lp)).layout = LayoutPolicy.layout_left) ∧
    (lp = LayoutPolicy.layout_left →
      (transpose (matrix_view.ctor d R C lp)).layout = LayoutPolicy.layout_right) ∧
    ∀ mem : List Int,
      numeric_view.elements mem
          { begin_ := (transpose (matrix_view.ctor d R C lp)).begin_,
            end_ := (transpose (matrix_view.ctor d R C lp)).end_ }
        = numeric_view.elements mem
          { begin_ := (matrix_view.ctor d R C lp).begin_,
            end_ := (matrix_view.ctor d R C lp).end_ } := by
  rw [transpose_ctor]
  refine ⟨rfl, rfl, rfl, rfl, rfl, rfl, rfl, ?_, ?_, fun _ => rfl⟩
  · intro h
    subst h
    rfl
  · intro h
    subst h
    rfl

/-! ## Writing through a view -/

theorem storage_getElem?_head (pre : List Int) (a : Int) (xs post : List Int) :
    (pre ++ a :: xs ++ post)[pre.length]? = some a := by
  rw [List.append_assoc, List.getElem?_append_right (le_refl _)]
  simp

theorem storage_set_head (pre : List Int) (a r : Int) (xs post : List Int) :
    (pre ++ a :: xs ++ post).set pre.length r = (pre ++ [r]) ++ xs ++ post := by
  simp

theorem storage_length_head (pre : List Int) (a : Int) (xs post : List Int) :
    pre.length < (pre ++ a :: xs ++ post).length := by
  simp

theorem transform_storage (f : Int → Option Int) (g : Int → Int) (xs : List Int) :
    ∀ (pre post : List Int), (∀ x, x ∈ xs → f x = some (g x)) →
      transform f xs.length pre.length pre.length (pre ++ xs ++ post)
        = some (pre ++ xs.map g ++ post) := by
  induction xs with
  | nil => intro pre post _; simp [transform]
  | cons a xs ih =>
    intro pre post hf
    have ha : f a = some (g a) := hf a (List.mem_cons_self a xs)
    simp only [List.length_cons, transform, storage_getElem?_head, ha,
      storage_length_head, if_true, storage_set_head]
    have := ih (pre ++ [g a]) post (fun x hx => hf x (List.mem_cons_of_mem a hx))
    simp only [List.length_append, List.length_singleton] at this
    rw [this]
    simp

theorem main_loop_storage (k : Int) (xs : List Int) :
    ∀ (pre post : List Int),
      main_loop k xs.length pre.length (pre ++ xs ++ post)
        = some (pre ++ xs.map (fun x => int_wrap (x - k)) ++ post) := by
  induction xs with
  | nil => intro pre post; simp [main_loop]
  | cons a xs ih =>
    intro pre post
    simp only [List.length_cons, main_loop, storage_getElem?_head, int_sub, storage_set_head]
    have := ih (pre ++ [int_wrap (a - k)]) post
    simp only [List.length_append, List.length_singleton] at this
    rw [this]
    simp

theorem zip_loop_storage (op : Int → Int → Option Int) (g : Int → Int → Int) (xs : List Int) :
    ∀ (pre post w : List Int),
      (∀ (p : Nat) (a b : Int), xs[p]? = some a → w[p]? = some b → op a b = some (g a b)) →
      zip_loop op xs.length pre.length w (pre ++ xs ++ post)
        = some (pre ++ (List.zipWith g xs w ++ xs.drop w.length) ++ post) := by
  induction xs with
  | nil => intro pre post w _; simp [zip_loop]
  | cons a xs ih =>
    intro pre post w hop
    cases w with
    | nil => simp [zip_loop]
    | cons b bs =>
      have hab : op a b = some (g a b) := hop 0 a b (by simp) (by simp)
      simp only [List.length_cons, zip_loop, storage_getElem?_head, hab, storage_set_head]
      have := ih (pre ++ [g a b]) post bs
        (fun p x y hx hy => hop (p + 1) x y (by simpa using hx) (by simpa using hy))
      simp only [List.length_append, List.length_singleton] at this
      rw [this]
      simp

theorem op_sub_assign_scalar_storage (pre xs post : List Int) (k : Int) :
    numeric_view.op_sub_assign_scalar (pre ++ xs ++ post)
        { begin_ := pre.length, end_ := pre.length + xs.length } k
      = some (pre ++ xs.map (fun x => int_wrap (x - k)) ++ post,
          { begin_ := pre.length, end_ := pre.length + xs.length }) := by
  simp only [numeric_view.op_sub_assign_scalar, numeric_view.size, Nat.add_sub_cancel_left]
  rw [transform_storage (fun val => int_sub val k) (fun x => int_wrap (x - k)) xs pre post
    (fun x _ => rfl)]
  rfl

theorem sub_each_slice_storage (d R C : Nat) (k : Int) (n : Nat) :
    ∀ (i : Nat) (pre xs post : List Int), pre.length = d + i * C → xs.length = n * C →
      (pre ++ xs ++ post).length < 2 ^ 64 →
      sub_each_slice (matrix_view.ctor d R C LayoutPolicy.layout_right) k n i (pre ++ xs ++ post)
        = some (pre ++ xs.map (fun x => int_wrap (x - k)) ++ post) := by
  induction n with
  | zero =>
    intro i pre xs post _ hxs _
    have : xs = [] := List.eq_nil_of_length_eq_zero (by simpa using hxs)
    subst this
    simp [sub_each_slice]
  | succ n ih =>
    intro i pre xs post hpre hxs hmem
    have e : (n + 1) * C = n * C + C := by ring
    have e2 : (i + 1) * C = i * C + C := by ring
    have hlen : pre.length + xs.length < 2 ^ 64 := by
      simp only [List.length_append] at hmem
      omega
    have htake : (xs.take C).length = C := by
      rw [List.length_take]
      omega
    have hsplit : pre ++ xs ++ post = pre ++ xs.take C ++ (xs.drop C ++ post) := by
      conv_lhs => rw [← List.take_append_drop C xs]
      simp only [List.append_assoc]
    have hview : (matrix_view.ctor d R C LayoutPolicy.layout_right).op_index i
        = { begin_ := pre.length, end_ := pre.length + (xs.take C).length } := by
      rw [op_index_layout_right _ _ _ _ (by omega), htake, hpre]
      simp only [Nat.add_assoc]
    rw [sub_each_slice, hview, hsplit, op_sub_assign_scalar_storage]
    simp only []
    have hnext := ih (i + 1) (pre ++ (xs.take C).map (fun x => int_wrap (x - k))) (xs.drop C) post
      (by simp only [List.length_append, List.length_map, htake]; omega)
      (by rw [List.length_drop]; omega)
      (by
        simp only [List.length_append, List.length_map, List.length_drop, htake]
        simp only [List.length_append] at hmem
        omega)
    have hassoc : pre ++ (xs.take C).map (fun x => int_wrap (x - k)) ++ (xs.drop C ++ post)
        = pre ++ (xs.take C).map (fun x => int_wrap (x - k)) ++ xs.drop C ++ post := by
      simp only [List.append_assoc]
    rw [hassoc, hnext]
    congr 1
    conv_rhs => rw [← List.take_append_drop C xs]
    simp only [List.map_append, List.append_assoc]

theorem size_of_storage_view (pre xs : List Int) :
    numeric_view.size { begin_ := pre.length, end_ := pre.length + xs.length } = xs.length := by
  simp only [numeric_view.size, Nat.add_sub_cancel_left]

theorem elements_of_storage_view (pre xs post ys : List Int) (h : ys.length = xs.length) :
    numeric_view.elements (pre ++ ys ++ post)
      { begin_ := pre.length, end_ := pre.length + xs.length } = some ys := by
  have := subrange_elements pre ys post 0 xs.length (by omega)
  simp only [Nat.add_zero, Nat.zero_add, List.drop_zero] at this
  rw [this, ← h, List.take_length]

theorem scalar_operator_storage (f : Int → Option Int) (g : Int → Int)
    (pre xs post : List Int) (hf : ∀ x, f x = some (g x)) :
    (transform f (numeric_view.size { begin_ := pre.length, end_ := pre.length + xs.length })
        pre.length pre.length (pre ++ xs ++ post)).map
        (fun mem' => (mem', ({ begin_ := pre.length, end_ := pre.length + xs.length }
          : numeric_view)))
      = some (pre ++ xs.map g ++ post,
          { begin_ := pre.length, end_ := pre.length + xs.length }) := by
  rw [size_of_storage_view, transform_storage f g xs pre post (fun x _ => hf x)]
  rfl

theorem zip_operator_storage (op : Int → Int → Option Int) (g : Int → Int → Int)
    (pre xs post w : List Int)
    (hop : ∀ (p : Nat) (a b : Int), xs[p]? = some a → w[p]? = some b → op a b = some (g a b)) :
    (zip_loop op (numeric_view.size { begin_ := pre.length, end_ := pre.length + xs.length })
        pre.length w (pre ++ xs ++ post)).map
        (fun mem' => (mem', ({ begin_ := pre.length, end_ := pre.length + xs.length }
          : numeric_view)))
      = some (pre ++ (List.zipWith g xs w ++ xs.drop w.length) ++ post,
          { begin_ := pre.length, end_ := pre.length + xs.length }) := by
  rw [size_of_storage_view, zip_loop_storage op g xs pre post w hop]
  rfl

theorem int_div_of_defined (a b : Int) (h : b ≠ 0) (h2 : ¬ (a = INT_MIN ∧ b = -1)) :
    int_div a b = some (Int.tdiv a b) := by
  simp only [int_div, h, h2, or_self, if_false]

theorem int_wrap_of_is_int (x : Int) (h : is_int x) : int_wrap x = x := by
  unfold is_int INT_MIN INT_MAX at h
  unfold int_wrap
  omega

theorem is_int_int_wrap (x : Int) : is_int (int_wrap x) := by
  unfold is_int INT_MIN INT_MAX int_wrap
  omega

theorem is_int_tdiv (a b : Int) (ha : is_int a) (hb : b ≠ 0)
    (h : ¬ (a = INT_MIN ∧ b = -1)) : is_int (Int.tdiv a b) := by
  unfold is_int INT_MIN INT_MAX at ha ⊢
  unfold INT_MIN at h
  by_cases h1 : b = 1
  · subst h1
    rw [Int.tdiv_one]
    exact ha
  · by_cases h2 : b = -1
    · subst h2
      have e : Int.tdiv a (-1) = -a := by
        rw [Int.tdiv_neg, Int.tdiv_one]
      rw [e]
      have : a ≠ -2147483648 := fun ha' => h ⟨ha', rfl⟩
      omega
    · have hn : (Int.tdiv a b).natAbs = a.natAbs / b.natAbs := Int.natAbs_tdiv a b
      have hb2 : 2 ≤ b.natAbs := by omega
      have hle : a.natAbs / b.natAbs ≤ a.natAbs / 2 :=
        Nat.div_le_div_left hb2 (by decide)
      omega

theorem zipWith_take_left (g : Int → Int → Int) (xs : List Int) :
    ∀ w : List Int, List.zipWith g xs w = List.zipWith g xs (w.take xs.length) := by
  induction xs with
  | nil => intro w; simp
  | cons a xs ih =>
    intro w
    cases w with
    | nil => simp
    | cons b bs => simp [← ih bs]

/-! ## The operators of `numeric_view` -/

/-- C6: on a row-major `R x C` view over a buffer of `R * C` integers, applying
`m[i] -= k` to the rows `i = 0 .. R - 1` in turn leaves the buffer with `k`
subtracted, as `int`, from every element exactly once, and the storage around
the buffer untouched; the loop of `main` over the flat span gives the same
storage.  Where every difference `x - k` is a value of `int` the new elements
are these differences; in every case they are values of `int`. -/
theorem sub_each_row_eq_map (pre buf post : List Int) (R C : Nat) (k : Int)
    (hbuf : buf.length = R * C) (hmem : (pre ++ buf ++ post).length < 2 ^ 64) :
    sub_each_slice (matrix_view.ctor pre.length R C LayoutPolicy.layout_right) k R 0
        (pre ++ buf ++ post)
      = some (pre ++ buf.map (fun x => int_wrap (x - k)) ++ post) ∧
    main_subtract (pre ++ buf ++ post)
        (matrix_view.ctor pre.length R C LayoutPolicy.layout_right) k
      = some (pre ++ buf.map (fun x => int_wrap (x - k)) ++ post) ∧
    ((∀ x, x ∈ buf → is_int (x - k)) →
      sub_each_slice (matrix_view.ctor pre.length R C LayoutPolicy.layout_right) k R 0
          (pre ++ buf ++ post)
        = some (pre ++ buf.map (fun x => x - k) ++ post) ∧
      main_subtract (pre ++ buf ++ post)
          (matrix_view.ctor pre.length R C LayoutPolicy.layout_right) k
        = some (pre ++ buf.map (fun x => x - k) ++ post)) ∧
    (∀ y, y ∈ buf.map (fun x => int_wrap (x - k)) → is_int y) := by
  have h1 : sub_each_slice (matrix_view.ctor pre.length R C LayoutPolicy.layout_right) k R 0
      (pre ++ buf ++ post) = some (pre ++ buf.map (fun x => int_wrap (x - k)) ++ post) :=
    sub_each_slice_storage pre.length R C k R 0 pre buf post (by simp) hbuf hmem
  have h2 : main_subtract (pre ++ buf ++ post)
      (matrix_view.ctor pre.length R C LayoutPolicy.layout_right) k
      = some (pre ++ buf.map (fun x => int_wrap (x - k)) ++ post) := by
    have hlt : R * C < 2 ^ 64 := by
      simp only [List.length_append] at hmem
      omega
    simp only [main_subtract, matrix_view.ctor, matrix_view.begin_, size_t_of_lt hlt]
    rw [← hbuf]
    exact main_loop_storage k buf pre post
  refine ⟨h1, h2, fun hr => ?_, fun y hy => ?_⟩
  · have e : buf.map (fun x => int_wrap (x - k)) = buf.map (fun x => x - k) :=
      List.map_congr_left (fun x hx => int_wrap_of_is_int _ (hr x hx))
    rw [h1, h2, e]
    exact ⟨rfl, rfl⟩
  · obtain ⟨x, _, hx⟩ := List.mem_map.mp hy
    rw [← hx]
    exact is_int_int_wrap _

/-- Witness of C6: the buffer `[1,2,3,4,5,6]` as 2x3 with `k = 2` becomes
`[-1,0,1,2,3,4]`. -/
theorem sub_each_row_eq_map_witness :
    ([1, 2, 3, 4, 5, 6].length = 2 * 3 ∧ ([] ++ [1, 2, 3, 4, 5, 6] ++ []).length < 2 ^ 64 ∧
      ∀ x : Int, x ∈ [1, 2, 3, 4, 5, 6] → is_int (x - 2)) ∧
    sub_each_slice (matrix_view.ctor 0 2 3 LayoutPolicy.layout_right) 2 2 0 [1, 2, 3, 4, 5, 6]
      = some [-1, 0, 1, 2, 3, 4] ∧
    main_subtract [1, 2, 3, 4, 5, 6] (matrix_view.ctor 0 2 3 LayoutPolicy.layout_right) 2
      = some [-1, 0, 1, 2, 3, 4] :=
  ⟨by decide,
   (sub_each_row_eq_map [] [1, 2, 3, 4, 5, 6] [] 2 3 2 (by decide) (by decide)).2.2.1
     (by decide)⟩

/-- C7, evaluated on the view of the single element `INT_MIN` divided by the
scalar `-1`, which is not zero: the operator has no result, the division traps. -/
theorem scalar_division_traps :
    (-1 : Int) ≠ 0 ∧
    numeric_view.op_div_assign_scalar [-2147483648] { begin_ := 0, end_ := 1 } (-1) = none := by
  decide

/-- C7 as amended: each scalar compound operator replaces every element `x` of
the view by `x op s` in `int` arithmetic, with `s` as the right operand: the sum,
the difference or the product reduced to 32 bits, which is the mathematical
result whenever that is a value of `int`, and the quotient truncated toward zero
for a divisor other than zero and no division of `INT_MIN` by `-1`.  The rest of
the storage is as it was and the operator returns the view it was applied to,
whose length is therefore unchanged.  The view ranges over the elements `xs`
stored after `pre`. -/
theorem scalar_operators (pre xs post : List Int) (s t : Int) (ht : t ≠ 0)
    (hdiv : ∀ x, x ∈ xs → ¬ (x = INT_MIN ∧ t = -1)) :
    (∀ ys : List Int, ys.length = xs.length →
      numeric_view.elements (pre ++ ys ++ post)
        { begin_ := pre.length, end_ := pre.length + xs.length } = some ys) ∧
    numeric_view.op_add_assign_scalar (pre ++ xs ++ post)
        { begin_ := pre.length, end_ := pre.length + xs.length } s
      = some (pre ++ xs.map (fun x => int_wrap (x + s)) ++ post,
          { begin_ := pre.length, end_ := pre.length + xs.length }) ∧
    numeric_view.op_sub_assign_scalar (pre ++ xs ++ post)
        { begin_ := pre.length, end_ := pre.length + xs.length } s
      = some (pre ++ xs.map (fun x => int_wrap (x - s)) ++ post,
          { begin_ := pre.length, end_ := pre.length + xs.length }) ∧
    numeric_view.op_mul_assign_scalar (pre ++ xs ++ post)
        { begin_ := pre.length, end_ := pre.length + xs.length } s
      = some (pre ++ xs.map (fun x => int_wrap (x * s)) ++ post,
          { begin_ := pre.length, end_ := pre.length + xs.length }) ∧
    numeric_view.op_div_assign_scalar (pre ++ xs ++ post)
        { begin_ := pre.length, end_ := pre.length + xs.length } t
      = some (pre ++ xs.map (fun x => Int.tdiv x t) ++ post,
          { begin_ := pre.length, end_ := pre.length + xs.length }) ∧
    (∀ y, is_int y → int_wrap y = y) ∧
    (∀ y, is_int (int_wrap y)) ∧
    (∀ x, x ∈ xs → is_int x → is_int (Int.tdiv x t)) := by
  refine ⟨fun ys h => elements_of_storage_view pre xs post ys h,
    scalar_operator_storage _ (fun x => int_wrap (x + s)) pre xs post (fun _ => rfl),
    scalar_operator_storage _ (fun x => int_wrap (x - s)) pre xs post (fun _ => rfl),
    scalar_operator_storage _ (fun x => int_wrap (x * s)) pre xs post (fun _ => rfl),
    ?_, int_wrap_of_is_int, is_int_int_wrap,
    fun x hx hi => is_int_tdiv x t hi ht (hdiv x hx)⟩
  simp only [numeric_view.op_div_assign_scalar]
  rw [size_of_storage_view, transform_storage (fun val => int_div val t)
    (fun x => Int.tdiv x t) xs pre post (fun x hx => int_div_of_defined x t ht (hdiv x hx))]
  rfl

/-- Witness of C7 as amended: the view of the middle three elements of
`[9,7,-7,3,9]` divided by 2 holds `[3,-3,1]`. -/
theorem scalar_operators_witness :
    ((2 : Int) ≠ 0 ∧ ∀ x : Int, x ∈ [7, -7, 3] → ¬ (x = INT_MIN ∧ (2 : Int) = -1)) ∧
    numeric_view.op_div_assign_scalar [9, 7, -7, 3, 9] { begin_ := 1, end_ := 4 } 2
      = some ([9, 3, -3, 1, 9], { begin_ := 1, end_ := 4 }) :=
  ⟨by decide,
   (scalar_operators [9] [7, -7, 3] [9] 5 2 (by decide) (by decide)).2.2.2.2.1⟩

/-- C8, evaluated on the view of the single element `INT_MIN` divided
element-wise by the sequence `[-1]` of the same length, whose element is not
zero: the operator has no result, the division traps. -/
theorem elementwise_division_traps :
    ([-1] : List Int).length = ([-2147483648] : List Int).length ∧
    (∀ b : Int, b ∈ [-1] → b ≠ 0) ∧
    numeric_view.op_div_assign [-2147483648] { begin_ := 0, end_ := 1 } [-1] = none := by
  decide

/-- C8 as amended: with another sequence `w` of the same length as the view (a
value of its own, so not aliasing the storage and not written), each
element-wise compound operator leaves the view holding `x op b` in `int`
arithmetic at every position, `x` the old element and `b` the element of `w`
there, leaves the rest of the storage and the length of the view unchanged, and
returns the view it was applied to.  For division no divisor is zero and
`INT_MIN` is not divided by `-1`. -/
theorem elementwise_operators (pre xs post w wd : List Int)
    (hw : w.length = xs.length) (hwd : wd.length = xs.length)
    (hdef : ∀ (p : Nat) (a b : Int), xs[p]? = some a → wd[p]? = some b →
      b ≠ 0 ∧ ¬ (a = INT_MIN ∧ b = -1)) :
    numeric_view.op_add_assign (pre ++ xs ++ post)
        { begin_ := pre.length, end_ := pre.length + xs.length } w
      = some (pre ++ List.zipWith (fun a b => int_wrap (a + b)) xs w ++ post,
          { begin_ := pre.length, end_ := pre.length + xs.length }) ∧
    numeric_view.op_sub_assign (pre ++ xs ++ post)
        { begin_ := pre.length, end_ := pre.length + xs.length } w
      = some (pre ++ List.zipWith (fun a b => int_wrap (a - b)) xs w ++ post,
          { begin_ := pre.length, end_ := pre.length + xs.length }) ∧
    numeric_view.op_mul_assign (pre ++ xs ++ post)
        { begin_ := pre.length, end_ := pre.length + xs.length } w
      = some (pre ++ List.zipWith (fun a b => int_wrap (a * b)) xs w ++ post,
          { begin_ := pre.length, end_ := pre.length + xs.length }) ∧
    numeric_view.op_div_assign (pre ++ xs ++ post)
        { begin_ := pre.length, end_ := pre.length + xs.length } wd
      = some (pre ++ List.zipWith (fun a b => Int.tdiv a b) xs wd ++ post,
          { begin_ := pre.length, end_ := pre.length + xs.length }) ∧
    (∀ g : Int → Int → Int, (List.zipWith g xs w).length = xs.length ∧
      ∀ p, p < xs.length → ∃ a b, xs[p]? = some a ∧ w[p]? = some b ∧
        (List.zipWith g xs w)[p]? = some (g a b)) ∧
    (∀ y, is_int y → int_wrap y = y) ∧
    (∀ y, is_int (int_wrap y)) := by
  have hdrop : xs.drop w.length = [] := by rw [hw, List.drop_length]
  have hdropd : xs.drop wd.length = [] := by rw [hwd, List.drop_length]
  have hadd := zip_operator_storage int_add (fun a b => int_wrap (a + b)) pre xs post w
    (fun _ _ _ _ _ => rfl)
  have hsub := zip_operator_storage int_sub (fun a b => int_wrap (a - b)) pre xs post w
    (fun _ _ _ _ _ => rfl)
  have hmul := zip_operator_storage int_mul (fun a b => int_wrap (a * b)) pre xs post w
    (fun _ _ _ _ _ => rfl)
  have hdivs := zip_operator_storage int_div (fun a b => Int.tdiv a b) pre xs post wd
    (fun p a b ha hb => int_div_of_defined a b (hdef p a b ha hb).1 (hdef p a b ha hb).2)
  rw [hdrop, List.append_nil] at hadd hsub hmul
  rw [hdropd, List.append_nil] at hdivs
  refine ⟨hadd, hsub, hmul, hdivs, fun g => ⟨by simp [hw], fun p hp => ?_⟩,
    int_wrap_of_is_int, is_int_int_wrap⟩
  have hpw : p < w.length := by omega
  refine ⟨xs[p], w[p], List.getElem?_eq_getElem hp, List.getElem?_eq_getElem hpw, ?_⟩
  rw [List.getElem?_zipWith, List.getElem?_eq_getElem hp, List.getElem?_eq_getElem hpw]

/-- Witness of C8 as amended: `[8,9,-7]` divided element-wise by `[2,3,2]` is
`[4,3,-3]`. -/
theorem elementwise_operators_witness :
    ([1, 1, 1].length = [8, 9, -7].length ∧ [2, 3, 2].length = [8, 9, -7].length) ∧
    numeric_view.op_div_assign [5, 8, 9, -7] { begin_ := 1, end_ := 4 } [2, 3, 2]
      = some ([5, 4, 3, -3], { begin_ := 1, end_ := 4 }) :=
  have h : ∀ (p : Nat) (a b : Int), ([8, 9, -7] : List Int)[p]? = some a →
      ([2, 3, 2] : List Int)[p]? = some b → b ≠ 0 ∧ ¬ (a = INT_MIN ∧ b = -1) := by
    intro p a b ha hb
    have hp : p < 3 := (List.getElem?_eq_some.mp hb).1
    interval_cases p <;> simp at hb <;> subst hb <;>
      exact ⟨by decide, fun h => absurd h.2 (by decide)⟩
  ⟨by decide,
   (elementwise_operators [5] [8, 9, -7] [] [1, 1, 1] [2, 3, 2] (by decide) (by decide)
      h).2.2.2.1⟩

/-- C9, evaluated on division: the view `[INT_MIN, 5]` divided by the shorter
sequence `[-1]` and the view `[8]` divided by the longer sequence `[0, 1]` have
no result: the division in the common prefix traps. -/
theorem elementwise_truncation_traps :
    numeric_view.op_div_assign [-2147483648, 5] { begin_ := 0, end_ := 2 } [-1] = none ∧
    numeric_view.op_div_assign [8] { begin_ := 0, end_ := 1 } [0, 1] = none := by
  decide

/-- C9 as amended: element-wise combination with a sequence of any length
truncates without signalling anything, for `+=`, `-=` and `*=` always and for
`/=` when no division in the common prefix has a zero divisor or divides
`INT_MIN` by `-1`: the operator completes and returns the view; the first
`min n k` elements of the view become `x op b` in `int` arithmetic, the elements
of the view from position `k` on keep their values when `w` is the shorter one,
and the elements of `w` from position `n` on play no part when `w` is the longer
one. -/
theorem elementwise_truncates (pre xs post w wd : List Int)
    (hdef : ∀ (p : Nat) (a b : Int), xs[p]? = some a → wd[p]? = some b →
      b ≠ 0 ∧ ¬ (a = INT_MIN ∧ b = -1)) :
    numeric_view.op_add_assign (pre ++ xs ++ post)
        { begin_ := pre.length, end_ := pre.length + xs.length } w
      = some (pre ++ (List.zipWith (fun a b => int_wrap (a + b)) xs w ++ xs.drop w.length)
            ++ post,
          { begin_ := pre.length, end_ := pre.length + xs.length }) ∧
    numeric_view.op_sub_assign (pre ++ xs ++ post)
        { begin_ := pre.length, end_ := pre.length + xs.length } w
      = some (pre ++ (List.zipWith (fun a b => int_wrap (a - b)) xs w ++ xs.drop w.length)
            ++ post,
          { begin_ := pre.length, end_ := pre.length + xs.length }) ∧
    numeric_view.op_mul_assign (pre ++ xs ++ post)
        { begin_ := pre.length, end_ := pre.length + xs.length } w
      = some (pre ++ (List.zipWith (fun a b => int_wrap (a * b)) xs w ++ xs.drop w.length)
            ++ post,
          { begin_ := pre.length, end_ := pre.length + xs.length }) ∧
    numeric_view.op_div_assign (pre ++ xs ++ post)
        { begin_ := pre.length, end_ := pre.length + xs.length } wd
      = some (pre ++ (List.zipWith (fun a b => Int.tdiv a b) xs wd ++ xs.drop wd.length) ++ post,
          { begin_ := pre.length, end_ := pre.length + xs.length }) ∧
    (∀ g : Int → Int → Int,
      (List.zipWith g xs w ++ xs.drop w.length).length = xs.length ∧
      (∀ p, p < min xs.length w.length → ∃ a b, xs[p]? = some a ∧ w[p]? = some b ∧
        (List.zipWith g xs w ++ xs.drop w.length)[p]? = some (g a b)) ∧
      (∀ p, w.length ≤ p →
        (List.zipWith g xs w ++ xs.drop w.length)[p]? = xs[p]?) ∧
      List.zipWith g xs w ++ xs.drop w.length
        = List.zipWith g xs (w.take xs.length) ++ xs.drop (w.take xs.length).length) ∧
    (∀ y, is_int y → int_wrap y = y) ∧
    (∀ y, is_int (int_wrap y)) := by
  have hadd := zip_operator_storage int_add (fun a b => int_wrap (a + b)) pre xs post w
    (fun _ _ _ _ _ => rfl)
  have hsub := zip_operator_storage int_sub (fun a b => int_wrap (a - b)) pre xs post w
    (fun _ _ _ _ _ => rfl)
  have hmul := zip_operator_storage int_mul (fun a b => int_wrap (a * b)) pre xs post w
    (fun _ _ _ _ _ => rfl)
  have hdivs := zip_operator_storage int_div (fun a b => Int.tdiv a b) pre xs post wd
    (fun p a b ha hb => int_div_of_defined a b (hdef p a b ha hb).1 (hdef p a b ha hb).2)
  refine ⟨hadd, hsub, hmul, hdivs, fun g => ⟨?_, ?_, ?_, ?_⟩,
    int_wrap_of_is_int, is_int_int_wrap⟩
  · simp only [List.length_append, List.length_zipWith, List.length_drop]
    omega
  · intro p hp
    have hpx : p < xs.length := lt_of_lt_of_le hp (Nat.min_le_left _ _)
    have hpw : p < w.length := lt_of_lt_of_le hp (Nat.min_le_right _ _)
    refine ⟨xs[p], w[p], List.getElem?_eq_getElem hpx, List.getElem?_eq_getElem hpw, ?_⟩
    rw [List.getElem?_append_left (by simpa using hp), List.getElem?_zipWith,
      List.getElem?_eq_getElem hpx, List.getElem?_eq_getElem hpw]
  · intro p hp
    by_cases hx : p < xs.length
    · have hl : (List.zipWith g xs w).length = w.length := by
        rw [List.length_zipWith]
        omega
      rw [List.getElem?_append_right (by omega), hl, List.getElem?_drop]
      congr 1
      omega
    · have hl : (List.zipWith g xs w ++ xs.drop w.length).length ≤ p := by
        simp only [List.length_append, List.length_zipWith, List.length_drop]
        omega
      rw [List.getElem?_eq_none hl, List.getElem?_eq_none (by omega)]
  · rw [← zipWith_take_left]
    by_cases h : w.length ≤ xs.length
    · rw [List.take_of_length_le h]
    · have h1 : xs.drop w.length = [] := List.drop_eq_nil_of_le (by omega)
      have h2 : xs.drop (w.take xs.length).length = [] :=
        List.drop_eq_nil_of_le (by rw [List.length_take]; omega)
      rw [h1, h2]

/-- Witness of C9 as amended: a view of three elements combined with a sequence
of two keeps its third element, and combined with a sequence of four ignores the
fourth. -/
theorem elementwise_truncates_witness :
    (∀ (p : Nat) (a b : Int), ([8, 9, -7] : List Int)[p]? = some a →
      ([2, 3, 2, 0] : List Int)[p]? = some b → b ≠ 0 ∧ ¬ (a = INT_MIN ∧ b = -1)) ∧
    numeric_view.op_sub_assign [8, 9, -7] { begin_ := 0, end_ := 3 } [1, 1]
      = some ([7, 8, -7], { begin_ := 0, end_ := 3 }) ∧
    numeric_view.op_div_assign [8, 9, -7] { begin_ := 0, end_ := 3 } [2, 3, 2, 0]
      = some ([4, 3, -3], { begin_ := 0, end_ := 3 }) :=
  have h : ∀ (p : Nat) (a b : Int), ([8, 9, -7] : List Int)[p]? = some a →
      ([2, 3, 2, 0] : List Int)[p]? = some b → b ≠ 0 ∧ ¬ (a = INT_MIN ∧ b = -1) := by
    intro p a b ha hb
    have hp : p < 3 := (List.getElem?_eq_some.mp ha).1
    interval_cases p <;> simp at hb <;> subst hb <;>
      exact ⟨by decide, fun h => absurd h.2 (by decide)⟩
  ⟨h, (elementwise_truncates [] [8, 9, -7] [] [1, 1] [2, 3, 2, 0] h).2.1,
   (elementwise_truncates [] [8, 9, -7] [] [1, 1] [2, 3, 2, 0] h).2.2.2.1⟩

theorem buffer_split (buf : List Int) (a n : Nat) :
    buf = buf.take a ++ (buf.drop a).take n ++ buf.drop (a + n) := by
  rw [List.append_assoc, ← List.drop_drop, List.take_append_drop, List.take_append_drop]

theorem getElem?_written_inside (buf : List Int) (g : Int → Int) (a n p : Nat)
    (h : a + n ≤ buf.length) (h1 : a ≤ p) (h2 : p < a + n) :
    (buf.take a ++ ((buf.drop a).take n).map g ++ buf.drop (a + n))[p]?
      = (buf[p]?).map g := by
  have hl : (buf.take a).length = a := by rw [List.length_take]; omega
  rw [List.append_assoc, List.getElem?_append_right (by omega), hl,
    List.getElem?_append_left (by
      rw [List.length_map, List.length_take, List.length_drop]
      omega),
    List.getElem?_map, List.getElem?_take_of_lt (by omega), List.getElem?_drop]
  congr 2
  omega

theorem getElem?_written_outside (buf : List Int) (g : Int → Int) (a n p : Nat)
    (h : a + n ≤ buf.length) (h1 : p < a ∨ a + n ≤ p) :
    (buf.take a ++ ((buf.drop a).take n).map g ++ buf.drop (a + n))[p]? = buf[p]? := by
  have hl : (buf.take a).length = a := by rw [List.length_take]; omega
  have hm : (((buf.drop a).take n).map g).length = n := by
    rw [List.length_map, List.length_take, List.length_drop]
    omega
  rcases h1 with h1 | h1
  · rw [List.append_assoc, List.getElem?_append_left (by omega),
      List.getElem?_take_of_lt h1]
  · rw [List.getElem?_append_right (by rw [List.length_append, hl, hm]; exact h1),
      List.length_append, hl, hm, List.getElem?_drop]
    congr 1
    omega

theorem row_of_linear_index {C i a b : Nat} (hb : b < C) :
    (i * C ≤ a * C + b ∧ a * C + b < i * C + C) ↔ a = i := by
  constructor
  · rintro ⟨h1, h2⟩
    rcases Nat.lt_trichotomy a i with h | h | h
    · have := Nat.mul_le_mul_right C (Nat.succ_le_of_lt h)
      have e : (a + 1) * C = a * C + C := by ring
      rw [Nat.succ_eq_add_one] at this
      omega
    · exact h
    · have := Nat.mul_le_mul_right C (Nat.succ_le_of_lt h)
      have e : (i + 1) * C = i * C + C := by ring
      rw [Nat.succ_eq_add_one] at this
      omega
  · rintro rfl
    omega

/-- C10: `m[i] -= k` on a row-major `R x C` view writes through to exactly the
slice: the operator completes and returns the slice, the buffer keeps its length,
the buffer positions `i * C .. i * C + C - 1` hold their old values minus `k`,
the difference of `int`, every other buffer position and the storage around the
buffer are unchanged, and the view, still `R x C`, reads the old value minus `k`
in row `i` and the old value in every other row.  The difference of `int` is the
mathematical difference whenever that is a value of `int`. -/
theorem slice_write_through (pre buf post : List Int) (R C i : Nat) (k : Int)
    (hbuf : buf.length = R * C) (hmem : (pre ++ buf ++ post).length < 2 ^ 64) (hi : i < R) :
    ∃ buf' : List Int,
      buf' = buf.take (i * C) ++ ((buf.drop (i * C)).take C).map (fun x => int_wrap (x - k))
        ++ buf.drop (i * C + C) ∧
      numeric_view.op_sub_assign_scalar (pre ++ buf ++ post)
          ((matrix_view.ctor pre.length R C LayoutPolicy.layout_right).op_index i) k
        = some (pre ++ buf' ++ post,
            (matrix_view.ctor pre.length R C LayoutPolicy.layout_right).op_index i) ∧
      buf'.length = buf.length ∧
      (∀ p, i * C ≤ p → p < i * C + C → buf'[p]? = (buf[p]?).map (fun x => int_wrap (x - k))) ∧
      (∀ p, p < i * C ∨ i * C + C ≤ p → buf'[p]? = buf[p]?) ∧
      (∀ a b, a < R → b < C →
        (matrix_view.ctor pre.length R C LayoutPolicy.layout_right).at_
            (pre ++ buf' ++ post) a b
          = if a = i then
              ((matrix_view.ctor pre.length R C LayoutPolicy.layout_right).at_
                (pre ++ buf ++ post) a b).map (fun x => int_wrap (x - k))
            else
              (matrix_view.ctor pre.length R C LayoutPolicy.layout_right).at_
                (pre ++ buf ++ post) a b) ∧
      (∀ x : Int, is_int (x - k) → int_wrap (x - k) = x - k) := by
  have hr : i * C + C ≤ buf.length := by
    have := slice_end_le (C := C) hi
    have e : (i + 1) * C = i * C + C := by ring
    omega
  have er : (i + 1) * C < 2 ^ 64 := by
    have e : (i + 1) * C = i * C + C := by ring
    simp only [List.length_append] at hmem
    omega
  have hl : (buf.take (i * C)).length = i * C := by rw [List.length_take]; omega
  have hx : ((buf.drop (i * C)).take C).length = C := by
    rw [List.length_take, List.length_drop]
    omega
  have hlen : (buf.take (i * C) ++ ((buf.drop (i * C)).take C).map (fun x => int_wrap (x - k))
      ++ buf.drop (i * C + C)).length = buf.length := by
    simp only [List.length_append, List.length_map, hl, hx, List.length_drop]
    omega
  refine ⟨buf.take (i * C) ++ ((buf.drop (i * C)).take C).map (fun x => int_wrap (x - k))
    ++ buf.drop (i * C + C), rfl, ?_, hlen, ?_, ?_, ?_,
    fun x hx => int_wrap_of_is_int _ hx⟩
  · have hview : (matrix_view.ctor pre.length R C LayoutPolicy.layout_right).op_index i
        = { begin_ := (pre ++ buf.take (i * C)).length,
            end_ := (pre ++ buf.take (i * C)).length + ((buf.drop (i * C)).take C).length } := by
      rw [op_index_layout_right _ _ _ _ er, List.length_append, hl, hx]
      simp only [Nat.add_assoc]
    have hsplit : pre ++ buf ++ post
        = (pre ++ buf.take (i * C)) ++ (buf.drop (i * C)).take C
            ++ (buf.drop (i * C + C) ++ post) := by
      conv_lhs => rw [buffer_split buf (i * C) C]
      simp only [List.append_assoc]
    rw [hview, hsplit, op_sub_assign_scalar_storage]
    simp only [List.append_assoc]
  · intro p h1 h2
    exact getElem?_written_inside buf _ (i * C) C p hr h1 h2
  · intro p h
    exact getElem?_written_outside buf _ (i * C) C p hr h
  · intro a b ha hb
    have h1 := (at_of_storage pre buf post R C a b (le_of_eq hbuf.symm) hmem ha hb).1.2
    have h2 := (at_of_storage pre _ post R C a b (by rw [hlen, hbuf])
      (by simp only [List.length_append, hlen] at hmem ⊢; exact hmem) ha hb).1.2
    rw [h1, h2]
    by_cases hai : a = i
    · rw [if_pos hai]
      have := (row_of_linear_index (i := i) hb).mpr hai
      exact getElem?_written_inside buf _ (i * C) C _ hr this.1 this.2
    · rw [if_neg hai]
      have hn : ¬ (i * C ≤ a * C + b ∧ a * C + b < i * C + C) :=
        fun h => hai ((row_of_linear_index hb).mp h)
      exact getElem?_written_outside buf _ (i * C) C _ hr (by omega)

/-- Witness of C10: on the buffer `[1,2,3,4,5,6]` viewed as 2x3, `row0 -= 2`
leaves the storage `[-1,0,1,4,5,6]`. -/
theorem slice_write_through_witness :
    ([1, 2, 3, 4, 5, 6].length = 2 * 3 ∧ ([] ++ [1, 2, 3, 4, 5, 6] ++ []).length < 2 ^ 64 ∧
      0 < 2) ∧
    numeric_view.op_sub_assign_scalar [1, 2, 3, 4, 5, 6]
        ((matrix_view.ctor 0 2 3 LayoutPolicy.layout_right).op_index 0) 2
      = some ([-1, 0, 1, 4, 5, 6], { begin_ := 0, end_ := 3 }) :=
  ⟨by decide,
   match slice_write_through [] [1, 2, 3, 4, 5, 6] [] 2 3 0 2 (by decide) (by decide)
      (by decide) with
   | ⟨_, hb, hop, _⟩ => by
     subst hb
     exact hop⟩

/-! ## Rendering -/

theorem put_at_end (s : List Char) (ch : Char) :
    stringstream.put { str := s, pos := s.length, fail := false } ch
      = { str := s ++ [ch], pos := (s ++ [ch]).length, fail := false } := by
  simp [stringstream.put]

theorem write_at_end (t : List Char) :
    ∀ s : List Char, stringstream.write { str := s, pos := s.length, fail := false } t
      = { str := s ++ t, pos := (s ++ t).length, fail := false } := by
  induction t with
  | nil => intro s; simp [stringstream.write]
  | cons ch t ih =>
    intro s
    have h := ih (s ++ [ch])
    simp only [stringstream.write] at h ⊢
    rw [List.foldl_cons, put_at_end, h]
    simp

theorem put_int_at_end (s : List Char) (w : Nat) (x : Int) :
    stringstream.put_int { str := s, pos := s.length, fail := false } w x
      = { str := s ++ int_field w x, pos := (s ++ int_field w x).length, fail := false } := by
  rw [stringstream.put_int, write_at_end]

theorem to_string_columns_at_end (mem : List Int) (m : matrix_view) (c : Char) (i : Nat)
    (xs : List Int) :
    ∀ (j : Nat) (s : List Char) (mw : Nat),
      (∀ q, q < xs.length → (m.op_index i).op_index mem (j + q) = xs[q]?) →
      to_string_columns mem m c i xs.length j { str := s, pos := s.length, fail := false } mw
        = some ({ str := s ++ xs.flatMap (fun x => int_field 7 x ++ [c]),
                  pos := (s ++ xs.flatMap (fun x => int_field 7 x ++ [c])).length,
                  fail := false },
                xs.foldl (fun a x => max a (std_to_string x).length) mw) := by
  induction xs with
  | nil => intro j s mw _; simp [to_string_columns]
  | cons x xs ih =>
    intro j s mw h
    have h0 : (m.op_index i).op_index mem j = some x := by
      have := h 0 (by simp)
      simpa using this
    have hrest : ∀ q, q < xs.length → (m.op_index i).op_index mem (j + 1 + q) = xs[q]? := by
      intro q hq
      have := h (q + 1) (by simp; omega)
      rw [List.getElem?_cons_succ] at this
      rw [← this]
      congr 1
      omega
    simp only [List.length_cons, to_string_columns, h0, put_int_at_end, put_at_end]
    rw [ih (j + 1) _ _ hrest]
    simp [List.flatMap_cons, List.append_assoc]

theorem row_separator_put (out : stringstream) (r : Char) :
    (if r = '\n' then out.put '\n' else out.put r) = out.put r := by
  by_cases h : r = '\n'
  · rw [if_pos h, h]
  · rw [if_neg h]

theorem slice_reads_row (pre buf post : List Int) (R C i : Nat)
    (hmem : (pre ++ buf ++ post).length < 2 ^ 64) (hi : (i + 1) * C ≤ buf.length) :
    ∀ q, q < ((buf.drop (i * C)).take C).length →
      ((matrix_view.ctor pre.length R C LayoutPolicy.layout_right).op_index i).op_index
        (pre ++ buf ++ post) (0 + q) = ((buf.drop (i * C)).take C)[q]? := by
  intro q hq
  have e : (i + 1) * C = i * C + C := by ring
  have hlen : ((buf.drop (i * C)).take C).length = C := by
    rw [List.length_take, List.length_drop]
    omega
  have hq' : q < C := by omega
  have hb : buf.length < 2 ^ 64 := by
    simp only [List.length_append] at hmem
    omega
  rw [op_index_layout_right _ _ _ _ (by omega), Nat.zero_add,
    subrange_op_index pre buf post _ _ q (by omega) hq',
    List.getElem?_take_of_lt hq', List.getElem?_drop]

theorem to_string_rows_at_end (pre buf post : List Int) (R C : Nat) (c r : Char)
    (hmem : (pre ++ buf ++ post).length < 2 ^ 64) (n : Nat) :
    ∀ (i : Nat) (s : List Char) (mw : Nat), (i + n) * C ≤ buf.length →
      ∃ mw' : Nat,
        to_string_rows (pre ++ buf ++ post)
            (matrix_view.ctor pre.length R C LayoutPolicy.layout_right) c r n i
            { str := s, pos := s.length, fail := false } mw
          = some ({ str := s ++ (List.range' i n).flatMap (fun a =>
                      ((buf.drop (a * C)).take C).flatMap (fun x => int_field 7 x ++ [c])
                        ++ [r]),
                    pos := (s ++ (List.range' i n).flatMap (fun a =>
                      ((buf.drop (a * C)).take C).flatMap (fun x => int_field 7 x ++ [c])
                        ++ [r])).length,
                    fail := false }, mw') := by
  induction n with
  | zero => intro i s mw _; exact ⟨mw, by simp [to_string_rows]⟩
  | succ n ih =>
    intro i s mw h
    have e : (i + (n + 1)) * C = (i + 1) * C + n * C := by ring
    have hi : (i + 1) * C ≤ buf.length := by omega
    have hlen : ((buf.drop (i * C)).take C).length = C := by
      have e2 : (i + 1) * C = i * C + C := by ring
      rw [List.length_take, List.length_drop]
      omega
    have hext : (matrix_view.ctor pre.length R C LayoutPolicy.layout_right).extent 1 = C := rfl
    have hcols := to_string_columns_at_end (pre ++ buf ++ post)
      (matrix_view.ctor pre.length R C LayoutPolicy.layout_right) c i
      ((buf.drop (i * C)).take C) 0 s mw (slice_reads_row pre buf post R C i hmem hi)
    rw [hlen] at hcols
    obtain ⟨mw', hrec⟩ := ih (i + 1)
      (s ++ ((buf.drop (i * C)).take C).flatMap (fun x => int_field 7 x ++ [c]) ++ [r])
      (List.foldl (fun a x => max a (std_to_string x).length) mw ((buf.drop (i * C)).take C))
      (by
        have : (i + 1 + n) * C = (i + 1) * C + n * C := by ring
        omega)
    refine ⟨mw', ?_⟩
    rw [to_string_rows, hext, hcols]
    simp only []
    rw [row_separator_put, put_at_end, hrec]
    simp [List.range'_succ, List.flatMap_cons, List.append_assoc]

theorem seekp_put_last (S : List Char) (r : Char) (h : S = [] ∨ ∃ T, S = T ++ [r]) :
    ((stringstream.seekp_end { str := S, pos := S.length, fail := false } (-1)).put r).str
      = S := by
  rcases h with h | ⟨T, h⟩
  · subst h
    simp [stringstream.seekp_end, stringstream.put]
  · subst h
    have h1 : (0 : Int) ≤ ((T ++ [r]).length : Int) + -1 := by
      simp
    have h2 : ((T ++ [r]).length : Int) + -1 ≤ ((T ++ [r]).length : Int) := by omega
    have h3 : (((T ++ [r]).length : Int) + -1).toNat = T.length := by
      simp
    simp only [stringstream.seekp_end, h1, h2, and_self, if_true, h3, stringstream.put]
    simp

theorem rows_text_ends (R : Nat) (f : Nat → List Char) (r : Char) :
    (List.range' 0 R).flatMap (fun a => f a ++ [r]) = [] ∨
      ∃ T, (List.range' 0 R).flatMap (fun a => f a ++ [r]) = T ++ [r] := by
  cases R with
  | zero => left; rfl
  | succ n =>
    right
    refine ⟨(List.range' 0 n).flatMap (fun a => f a ++ [r]) ++ f (0 + 1 * n), ?_⟩
    rw [List.range'_concat, List.flatMap_append, List.flatMap_singleton, List.append_assoc]

theorem to_string_layout_right (pre buf post : List Int) (R C : Nat) (c r : Char)
    (hbuf : R * C ≤ buf.length) (hmem : (pre ++ buf ++ post).length < 2 ^ 64) :
    to_string (pre ++ buf ++ post) (matrix_view.ctor pre.length R C LayoutPolicy.layout_right)
        c r
      = some ((List.range' 0 R).flatMap (fun a =>
          ((buf.drop (a * C)).take C).flatMap (fun x => int_field 7 x ++ [c]) ++ [r])) := by
  obtain ⟨mw', h⟩ := to_string_rows_at_end pre buf post R C c r hmem R 0 [] 0
    (by simpa using hbuf)
  have hl : (matrix_view.ctor pre.length R C LayoutPolicy.layout_right).layout
      = LayoutPolicy.layout_right := rfl
  have he : (matrix_view.ctor pre.length R C LayoutPolicy.layout_right).extent 0 = R := rfl
  rw [to_string, if_pos hl, he]
  simp only [List.length_nil, List.nil_append] at h
  rw [h]
  simp only []
  by_cases hr : r = '\n'
  · simp [hr]
  · rw [if_pos hr, seekp_put_last _ _ (rows_text_ends R _ r)]

theorem int_field_length (w : Nat) (x : Int) :
    (int_field w x).length = max w (std_to_string x).length := by
  simp only [int_field, List.length_append, List.length_replicate]
  omega

theorem transpose_twice_ctor (d R C : Nat) (lp : LayoutPolicy) :
    transpose (transpose (matrix_view.ctor d R C lp)) = matrix_view.ctor d R C lp := by
  rw [transpose_ctor, transpose_ctor]
  cases lp <;> rfl

theorem to_string_layout_left (mem : List Int) (d R C : Nat) (c r : Char) :
    to_string mem (matrix_view.ctor d R C LayoutPolicy.layout_left) c r
      = to_string mem (matrix_view.ctor d R C LayoutPolicy.layout_right) c r := by
  have hl : ¬ (matrix_view.ctor d R C LayoutPolicy.layout_left).layout
      = LayoutPolicy.layout_right := by
    simp [matrix_view.ctor]
  conv_lhs => rw [to_string, if_neg hl, transpose_ctor]

theorem row_of_buffer (buf : List Int) (C i j : Nat) (hj : j < C) :
    ((buf.drop (i * C)).take C)[j]? = buf[i * C + j]? := by
  rw [List.getElem?_take_of_lt hj, List.getElem?_drop]

/-- C11: on a row-major `R x C` view the text `to_string(m, c, '\n')` is, for the
rows `i = 0 .. R - 1` in order, the cells of the row in the order of the columns
followed by one line break, a cell being the field of the element followed by
`c`.  The field is the decimal text after as many blanks as it lacks to seven
characters, so at least seven characters long and never cut.  The element in
column `j` of row `i` is `m.at(i, j)`. -/
theorem to_string_line_break (pre buf post : List Int) (R C : Nat) (c : Char)
    (hbuf : R * C ≤ buf.length) (hmem : (pre ++ buf ++ post).length < 2 ^ 64) :
    to_string (pre ++ buf ++ post) (matrix_view.ctor pre.length R C LayoutPolicy.layout_right)
        c '\n'
      = some ((List.range R).flatMap (fun i =>
          ((buf.drop (i * C)).take C).flatMap (fun x => int_field 7 x ++ [c]) ++ ['\n'])) ∧
    (∀ i j, i < R → j < C →
      ((buf.drop (i * C)).take C)[j]?
        = (matrix_view.ctor pre.length R C LayoutPolicy.layout_right).at_
            (pre ++ buf ++ post) i j) ∧
    (∀ i, i < R → ((buf.drop (i * C)).take C).length = C) ∧
    (∀ x : Int,
      int_field 7 x = List.replicate (7 - (std_to_string x).length) ' ' ++ std_to_string x ∧
      (int_field 7 x).length = max 7 (std_to_string x).length) := by
  refine ⟨?_, ?_, ?_, fun x => ⟨rfl, int_field_length 7 x⟩⟩
  · rw [to_string_layout_right pre buf post R C c '\n' hbuf hmem, List.range_eq_range']
  · intro i j hi hj
    rw [row_of_buffer buf C i j hj, (at_of_storage pre buf post R C i j hbuf hmem hi hj).1.2]
  · intro i hi
    have := slice_end_le (C := C) hi
    have e : (i + 1) * C = i * C + C := by ring
    rw [List.length_take, List.length_drop]
    omega

/-- Witness of C11: the buffer `[-1,0,1,4,5,6]` as 2x3 with `','` renders, the
blanks left out, as `-1,0,1,` and `4,5,6,`, each followed by a line break. -/
theorem to_string_line_break_witness :
    (2 * 3 ≤ [-1, 0, 1, 4, 5, 6].length ∧ ([] ++ [-1, 0, 1, 4, 5, 6] ++ []).length < 2 ^ 64) ∧
    (to_string [-1, 0, 1, 4, 5, 6] (matrix_view.ctor 0 2 3 LayoutPolicy.layout_right)
        ',' '\n').map (List.filter (fun ch => ch != ' '))
      = some ['-', '1', ',', '0', ',', '1', ',', '\n', '4', ',', '5', ',', '6', ',', '\n'] := by
  have h : to_string [-1, 0, 1, 4, 5, 6] (matrix_view.ctor 0 2 3 LayoutPolicy.layout_right)
      ',' '\n' = _ :=
    (to_string_line_break [] [-1, 0, 1, 4, 5, 6] [] 2 3 ',' (by decide) (by decide)).1
  refine ⟨by decide, ?_⟩
  rw [h]
  decide

/-- C12, evaluated on the grid with rows `1,2,3` and `4,5,6`: the row-major view
of the buffer `[1,2,3,4,5,6]` renders the rows `1,2,3` and `4,5,6`, while the
column-major view of the transposed data `[1,4,2,5,3,6]` renders the rows `1,4,2`
and `5,3,6`: the cell printed at row 0, column 1 is 4, and `m.at(0, 1)` is 2. -/
theorem to_string_column_major_order :
    (to_string [1, 2, 3, 4, 5, 6] (matrix_view.ctor 0 2 3 LayoutPolicy.layout_right)
        ',' '\n').map (List.filter (fun ch => ch != ' '))
      = some ['1', ',', '2', ',', '3', ',', '\n', '4', ',', '5', ',', '6', ',', '\n'] ∧
    (to_string [1, 4, 2, 5, 3, 6] (matrix_view.ctor 0 2 3 LayoutPolicy.layout_left)
        ',' '\n').map (List.filter (fun ch => ch != ' '))
      = some ['1', ',', '4', ',', '2', ',', '\n', '5', ',', '3', ',', '6', ',', '\n'] ∧
    to_string [1, 2, 3, 4, 5, 6] (matrix_view.ctor 0 2 3 LayoutPolicy.layout_right) ',' '\n'
      ≠ to_string [1, 4, 2, 5, 3, 6] (matrix_view.ctor 0 2 3 LayoutPolicy.layout_left)
          ',' '\n' ∧
    (matrix_view.ctor 0 2 3 LayoutPolicy.layout_left).at_ [1, 4, 2, 5, 3, 6] 0 1 = some 2 := by
  have h1 : to_string [1, 2, 3, 4, 5, 6] (matrix_view.ctor 0 2 3 LayoutPolicy.layout_right)
      ',' '\n' = _ :=
    to_string_layout_right [] [1, 2, 3, 4, 5, 6] [] 2 3 ',' '\n' (by decide) (by decide)
  have h2 : to_string [1, 4, 2, 5, 3, 6] (matrix_view.ctor 0 2 3 LayoutPolicy.layout_right)
      ',' '\n' = _ :=
    to_string_layout_right [] [1, 4, 2, 5, 3, 6] [] 2 3 ',' '\n' (by decide) (by decide)
  rw [to_string_layout_left, h1, h2]
  decide

/-- C13: for a view of either layout and any separators, `to_string(m, c, r)` is
`to_string(transpose(m), c, r)`; the rendering of a column-major view is the
rendering of its transpose, that is of the row-major view with the same extents
over the same buffer; and over a storage that holds the buffer the function
returns a text. -/
theorem to_string_transpose (pre buf post : List Int) (R C : Nat) (lp : LayoutPolicy)
    (c r : Char) (hbuf : R * C ≤ buf.length) (hmem : (pre ++ buf ++ post).length < 2 ^ 64) :
    to_string (pre ++ buf ++ post) (matrix_view.ctor pre.length R C lp) c r
      = to_string (pre ++ buf ++ post) (transpose (matrix_view.ctor pre.length R C lp)) c r ∧
    to_string (pre ++ buf ++ post) (matrix_view.ctor pre.length R C LayoutPolicy.layout_left) c r
      = to_string (pre ++ buf ++ post)
          (matrix_view.ctor pre.length R C LayoutPolicy.layout_right) c r ∧
    ∃ text, to_string (pre ++ buf ++ post) (matrix_view.ctor pre.length R C lp) c r
      = some text := by
  refine ⟨?_, to_string_layout_left _ _ _ _ _ _, ?_⟩
  · rw [transpose_ctor]
    cases lp
    · exact (to_string_layout_left _ _ _ _ _ _).symm
    · exact to_string_layout_left _ _ _ _ _ _
  · cases lp
    · exact ⟨_, to_string_layout_right pre buf post R C c r hbuf hmem⟩
    · rw [to_string_layout_left]
      exact ⟨_, to_string_layout_right pre buf post R C c r hbuf hmem⟩

/-- Witness of C13: the column-major 2x3 view of `[1,4,2,5,3,6]` renders as its
transpose does. -/
theorem to_string_transpose_witness :
    (2 * 3 ≤ [1, 4, 2, 5, 3, 6].length ∧ ([] ++ [1, 4, 2, 5, 3, 6] ++ []).length < 2 ^ 64) ∧
    to_string [1, 4, 2, 5, 3, 6] (matrix_view.ctor 0 2 3 LayoutPolicy.layout_left) ',' ';'
      = to_string [1, 4, 2, 5, 3, 6]
          (transpose (matrix_view.ctor 0 2 3 LayoutPolicy.layout_left)) ',' ';' :=
  ⟨by decide,
   (to_string_transpose [] [1, 4, 2, 5, 3, 6] [] 2 3 LayoutPolicy.layout_left ',' ';'
      (by decide) (by decide)).1⟩

/-- C14, evaluated on the row-major 1x1 view of `[5]` with the separators `','`
and `';'`: the text is the field of 5 followed by `,;`, which is the plain
concatenation of the cell with its column separator and the row separator, of
the same length, ending with the column separator and the row separator. -/
theorem to_string_keeps_last_separator :
    to_string [5] (matrix_view.ctor 0 1 1 LayoutPolicy.layout_right) ',' ';'
      = some [' ', ' ', ' ', ' ', ' ', ' ', '5', ',', ';'] ∧
    to_string [5] (matrix_view.ctor 0 1 1 LayoutPolicy.layout_right) ',' ';'
      = some (int_field 7 5 ++ [','] ++ [';']) ∧
    (to_string [5] (matrix_view.ctor 0 1 1 LayoutPolicy.layout_right) ',' ';').map List.length
      = some ((int_field 7 5 ++ [','] ++ [';']).length) := by
  have h : to_string [5] (matrix_view.ctor 0 1 1 LayoutPolicy.layout_right) ',' ';' = _ :=
    to_string_layout_right [] [5] [] 1 1 ',' ';' (by decide) (by decide)
  rw [h]
  decide

/-- C15, evaluated on the row-major 1x2 view of `[12345678, 1]`: the first cell
takes eight characters and the second seven, although the widest element needs
eight. -/
theorem to_string_cell_widths :
    to_string [12345678, 1] (matrix_view.ctor 0 1 2 LayoutPolicy.layout_right) ',' '\n'
      = some ['1', '2', '3', '4', '5', '6', '7', '8', ',',
              ' ', ' ', ' ', ' ', ' ', ' ', '1', ',', '\n'] ∧
    (int_field 7 12345678).length = 8 ∧
    (int_field 7 1).length = 7 ∧
    (std_to_string 12345678).length = 8 := by
  have h : to_string [12345678, 1] (matrix_view.ctor 0 1 2 LayoutPolicy.layout_right)
      ',' '\n' = _ :=
    to_string_layout_right [] [12345678, 1] [] 1 2 ',' '\n' (by decide) (by decide)
  rw [h]
  decide

/-! ## Iteration, construction and persistence -/

/-- C16, evaluated on the row-major 2x3 view: a range-based `for` visits six
items, not two. -/
theorem range_for_counts_elements :
    (matrix_view.ctor 0 2 3 LayoutPolicy.layout_right).range_for.length = 6 ∧
    ¬ (matrix_view.ctor 0 2 3 LayoutPolicy.layout_right).range_for.length = 2 ∧
    (matrix_view.ctor 0 2 3 LayoutPolicy.layout_right).range_for = [0, 1, 2, 3, 4, 5] := by
  decide

/-- C16 as amended: iterating a row-major `R x C` view visits exactly `R * C`
items, the single elements of the buffer in buffer order; the item at place
`i * C + j` is element `j` of the slice `m[i]`, for `i < R` and `j < C`, and it
is the element `m.at(i, j)`. -/
theorem range_for_visits_elements (pre buf post : List Int) (R C : Nat)
    (hbuf : R * C ≤ buf.length) (hmem : (pre ++ buf ++ post).length < 2 ^ 64) :
    (matrix_view.ctor pre.length R C LayoutPolicy.layout_right).range_for.length = R * C ∧
    (∀ p, p < R * C →
      (matrix_view.ctor pre.length R C LayoutPolicy.layout_right).range_for[p]?
        = some (pre.length + p)) ∧
    (∀ i j, i < R → j < C →
      (matrix_view.ctor pre.length R C LayoutPolicy.layout_right).range_for[i * C + j]?
        = some (((matrix_view.ctor pre.length R C LayoutPolicy.layout_right).op_index i).begin_
            + j) ∧
      (pre ++ buf ++ post)[pre.length + (i * C + j)]?
        = (matrix_view.ctor pre.length R C LayoutPolicy.layout_right).at_
            (pre ++ buf ++ post) i j) := by
  have hlt : R * C < 2 ^ 64 := by
    simp only [List.length_append] at hmem
    omega
  have hsize : (matrix_view.ctor pre.length R C LayoutPolicy.layout_right).span_size = R * C :=
    size_t_of_lt hlt
  have hitem : ∀ p, p < R * C →
      (matrix_view.ctor pre.length R C LayoutPolicy.layout_right).range_for[p]?
        = some (pre.length + p) := by
    intro p hp
    rw [matrix_view.range_for, hsize, List.getElem?_range' _ _ hp, Nat.one_mul]
    rfl
  refine ⟨?_, hitem, ?_⟩
  · rw [matrix_view.range_for, List.length_range', hsize]
  · intro i j hi hj
    have hp := linear_index_lt hi hj
    have hend := slice_end_le (C := C) hi
    have hat := (at_of_storage pre buf post R C i j hbuf hmem hi hj).1
    refine ⟨?_, ?_⟩
    · rw [hitem _ hp, op_index_layout_right _ _ _ _ (by omega)]
      simp only [Nat.add_assoc]
    · rw [hat.2]
      exact getElem?_storage pre buf post _ hat.1

/-- Witness of C16 as amended: the 2x3 view of `[1,2,3,4,5,6]` is visited at
the six positions 0 to 5. -/
theorem range_for_visits_elements_witness :
    (2 * 3 ≤ [1, 2, 3, 4, 5, 6].length ∧ ([] ++ [1, 2, 3, 4, 5, 6] ++ []).length < 2 ^ 64) ∧
    (matrix_view.ctor 0 2 3 LayoutPolicy.layout_right).range_for.length = 2 * 3 :=
  ⟨by decide,
   (range_for_visits_elements [] [1, 2, 3, 4, 5, 6] [] 2 3 (by decide) (by decide)).1⟩

/-- C17, evaluated on a buffer of three elements with `rows = 2` and
`columns = 3`: the constructor returns the 2x3 view; it reads the buffer where
the index falls inside and has no element where it falls outside. -/
theorem ctor_accepts_short_buffer :
    (3 < 2 * 3) ∧
    matrix_view.ctor_range { data := 0, size := 3 } 2 3 LayoutPolicy.layout_right
      = matrix_view.ctor 0 2 3 LayoutPolicy.layout_right ∧
    (matrix_view.ctor_range { data := 0, size := 3 } 2 3 LayoutPolicy.layout_right).extent 0
      = 2 ∧
    (matrix_view.ctor_range { data := 0, size := 3 } 2 3 LayoutPolicy.layout_right).extent 1
      = 3 ∧
    (matrix_view.ctor_range { data := 0, size := 3 } 2 3 LayoutPolicy.layout_right).at_
      [1, 2, 3] 0 1 = some 2 ∧
    (matrix_view.ctor_range { data := 0, size := 3 } 2 3 LayoutPolicy.layout_right).at_
      [1, 2, 3] 1 2 = none := by
  decide

/-- C17 as amended: construction never fails and does not look at the length of
the buffer: for every range, row count, column count and layout the constructor
returns the view over `data.data()` with `extent(0) = rows`,
`extent(1) = columns` and a span of `rows * columns` elements (as a
`std::size_t`), the same view for every length of the range. -/
theorem ctor_unchecked (data : contiguous_range) (rows columns : Nat) (lp : LayoutPolicy) :
    matrix_view.ctor_range data rows columns lp = matrix_view.ctor data.data rows columns lp ∧
    (∀ size : Nat,
      matrix_view.ctor_range { data := data.data, size := size } rows columns lp
        = matrix_view.ctor_range data rows columns lp) ∧
    (matrix_view.ctor_range data rows columns lp).extent 0 = rows ∧
    (matrix_view.ctor_range data rows columns lp).extent 1 = columns ∧
    (matrix_view.ctor_range data rows columns lp).data = data.data ∧
    (matrix_view.ctor_range data rows columns lp).layout = lp ∧
    (matrix_view.ctor_range data rows columns lp).span_size = size_t (rows * columns) :=
  ⟨rfl, fun _ => rfl, rfl, rfl, rfl, rfl, rfl⟩

/-- C18, evaluated on the 1x1 grid holding 7 and the path `out/m` in an empty
file system: `save` creates the directory `out` and writes the text of the view
to the file, and `load` from that path returns the buffer `[1,2,3,4,5,6]` with a
2x3 view, not a 1x1 view of `[7]`.  On the path `m`, which has no parent, `save`
ends with the exception of `create_directories`. -/
theorem save_load_not_round_trip :
    save { directories := [], files := [] } [7]
        (matrix_view.ctor 0 1 1 LayoutPolicy.layout_right) [['o', 'u', 't'], ['m']]
      = some (save_result.saved
          { directories := [[['o', 'u', 't']]],
            files := [([['o', 'u', 't'], ['m']],
              [' ', ' ', ' ', ' ', ' ', ' ', '7', ',', '\n'])] }) ∧
    load [['o', 'u', 't'], ['m']]
      = ([1, 2, 3, 4, 5, 6], matrix_view.ctor 0 2 3 LayoutPolicy.layout_right) ∧
    (load [['o', 'u', 't'], ['m']]).2.extent 0 = 2 ∧
    (load [['o', 'u', 't'], ['m']]).2.extent 1 = 3 ∧
    (load [['o', 'u', 't'], ['m']]).1 ≠ [7] ∧
    save { directories := [], files := [] } [7]
        (matrix_view.ctor 0 1 1 LayoutPolicy.layout_right) [['m']]
      = some save_result.threw := by
  have h : to_string [7] (matrix_view.ctor 0 1 1 LayoutPolicy.layout_right) ',' '\n' = _ :=
    to_string_layout_right [] [7] [] 1 1 ',' '\n' (by decide) (by decide)
  have hc : create_directories { directories := [], files := [] }
      (parent_path [['o', 'u', 't'], ['m']])
      = some { directories := [[['o', 'u', 't']]], files := [] } := by decide
  have hm : create_directories { directories := [], files := [] } (parent_path [['m']])
      = none := by decide
  refine ⟨?_, rfl, rfl, rfl, by decide, ?_⟩
  · rw [save, hc]
    simp only []
    rw [if_neg (by decide), h]
    decide
  · rw [save, hm]

/-! ## The index map and the formatter -/

theorem linear_index_injective {C i j i' j' : Nat} (hj : j < C) (hj' : j' < C)
    (h : i * C + j = i' * C + j') : i = i' ∧ j = j' := by
  have hi : i' = i := (row_of_linear_index (i := i) hj').mp ⟨by omega, by omega⟩
  subst hi
  exact ⟨rfl, by omega⟩

theorem linear_index_surjective {R C p : Nat} (hp : p < R * C) :
    ∃ i j, i < R ∧ j < C ∧ i * C + j = p := by
  have hC : 0 < C := by
    rcases Nat.eq_zero_or_pos C with h | h
    · subst h
      simp at hp
    · exact h
  refine ⟨p / C, p % C, ?_, Nat.mod_lt p hC, Nat.div_add_mod' p C⟩
  exact (Nat.div_lt_iff_lt_mul hC).mpr hp

/-- C19: for extents `R`, `C` whose product is a `std::size_t` and either
layout, the linear index of `at` is `i * C + j` for row major and `j * R + i`
for column major; on the indices `i < R`, `j < C` it stays below `R * C`, it is
injective, and it reaches every position below `R * C`; so an access within the
extents lies between `begin()` and `end()` of the span, and two distinct
coordinates never name the same element. -/
theorem layout_mapping_bijective (R C : Nat) (lp : LayoutPolicy) (h : R * C < 2 ^ 64) :
    (∀ i j, i < R → j < C →
      layout_mapping lp [R, C] i j
        = (match lp with
           | LayoutPolicy.layout_right => i * C + j
           | LayoutPolicy.layout_left => j * R + i) ∧
      layout_mapping lp [R, C] i j < R * C) ∧
    (∀ i j i' j', i < R → j < C → i' < R → j' < C →
      layout_mapping lp [R, C] i j = layout_mapping lp [R, C] i' j' → i = i' ∧ j = j') ∧
    (∀ p, p < R * C → ∃ i j, i < R ∧ j < C ∧ layout_mapping lp [R, C] i j = p) ∧
    (∀ d i j, i < R → j < C →
      (matrix_view.ctor d R C lp).begin_
          ≤ (matrix_view.ctor d R C lp).data_handle + layout_mapping lp [R, C] i j ∧
      (matrix_view.ctor d R C lp).data_handle + layout_mapping lp [R, C] i j
          < (matrix_view.ctor d R C lp).end_) := by
  have hr : ∀ i j, i < R → j < C →
      layout_mapping LayoutPolicy.layout_right [R, C] i j = i * C + j ∧ i * C + j < R * C := by
    intro i j hi hj
    have hlt := linear_index_lt hi hj
    exact ⟨mapping_layout_right R C i j (by omega), hlt⟩
  have hl : ∀ i j, i < R → j < C →
      layout_mapping LayoutPolicy.layout_left [R, C] i j = j * R + i ∧ j * R + i < R * C := by
    intro i j hi hj
    have hlt := linear_index_lt hj hi
    rw [Nat.mul_comm C R] at hlt
    exact ⟨mapping_layout_left R C i j (by omega), hlt⟩
  have hend : ∀ d, (matrix_view.ctor d R C lp).end_ = d + R * C := by
    intro d
    simp only [matrix_view.end_, matrix_view.ctor, size_t_of_lt h]
  cases lp
  · refine ⟨fun i j hi hj => ?_, fun i j i' j' hi hj hi' hj' he => ?_, fun p hp => ?_,
      fun d i j hi hj => ?_⟩
    · exact ⟨(hr i j hi hj).1, by rw [(hr i j hi hj).1]; exact (hr i j hi hj).2⟩
    · rw [(hr i j hi hj).1, (hr i' j' hi' hj').1] at he
      exact linear_index_injective hj hj' he
    · obtain ⟨i, j, hi, hj, he⟩ := linear_index_surjective hp
      exact ⟨i, j, hi, hj, by rw [(hr i j hi hj).1, he]⟩
    · rw [hend, (hr i j hi hj).1]
      have := (hr i j hi hj).2
      simp only [matrix_view.begin_, matrix_view.ctor]
      omega
  · refine ⟨fun i j hi hj => ?_, fun i j i' j' hi hj hi' hj' he => ?_, fun p hp => ?_,
      fun d i j hi hj => ?_⟩
    · exact ⟨(hl i j hi hj).1, by rw [(hl i j hi hj).1]; exact (hl i j hi hj).2⟩
    · rw [(hl i j hi hj).1, (hl i' j' hi' hj').1] at he
      have := linear_index_injective hi hi' he
      exact ⟨this.2, this.1⟩
    · rw [Nat.mul_comm R C] at hp
      obtain ⟨j, i, hj, hi, he⟩ := linear_index_surjective hp
      exact ⟨i, j, hi, hj, by rw [(hl i j hi hj).1, he]⟩
    · rw [hend, (hl i j hi hj).1]
      have := (hl i j hi hj).2
      simp only [matrix_view.begin_, matrix_view.ctor]
      omega

/-- Witness of C19: in the column-major 2x3 view the index `(1, 2)` is mapped to
position 5, below `2 * 3`. -/
theorem layout_mapping_bijective_witness :
    2 * 3 < 2 ^ 64 ∧
    layout_mapping LayoutPolicy.layout_left [2, 3] 1 2 = 5 ∧
    layout_mapping LayoutPolicy.layout_left [2, 3] 1 2 < 2 * 3 :=
  ⟨by decide,
   ((layout_mapping_bijective 2 3 LayoutPolicy.layout_left (by decide)).1 1 2 (by decide)
      (by decide)).1,
   ((layout_mapping_bijective 2 3 LayoutPolicy.layout_left (by decide)).1 1 2 (by decide)
      (by decide)).2⟩

theorem formatter_eta (f : formatter) :
    ({ column_separator := f.column_separator, row_separator := f.row_separator } : formatter)
      = f := by
  cases f
  rfl

theorem takeWhile_stops (l : List Char) :
    (l.takeWhile (fun ch => ch != '}')).length = l.length ∨
      l[(l.takeWhile (fun ch => ch != '}')).length]? = some '}' := by
  induction l with
  | nil => left; rfl
  | cons ch rest ih =>
    by_cases h : ch = '}'
    · right
      subst h
      simp
    · have hb : (ch != '}') = true := by simpa using h
      rw [List.takeWhile_cons, if_pos hb]
      rcases ih with ih | ih
      · left
        simp [ih]
      · right
        simpa using ih

theorem parse_loop_from_two (ctx : List Char) :
    ∀ (i pos : Nat) (f : formatter), 2 ≤ i → i + ctx.length < 2 ^ 64 →
      formatter.parse_loop ctx i pos f
        = (f, pos + (ctx.takeWhile (fun ch => ch != '}')).length) := by
  induction ctx with
  | nil => intro i pos f _ _; simp [formatter.parse_loop]
  | cons ch rest ih =>
    intro i pos f hi hlen
    simp only [List.length_cons] at hlen
    by_cases h : ch = '}'
    · subst h
      simp [formatter.parse_loop]
    · have hb : (ch != '}') = true := by simpa using h
      have h0 : ¬ i = 0 := by omega
      have h1 : ¬ i = 1 := by omega
      rw [formatter.parse_loop, if_neg h, if_neg h0, if_neg h1, formatter_eta,
        size_t_of_lt (by omega), ih (i + 1) (pos + 1) f (by omega) (by omega),
        List.takeWhile_cons, if_pos hb, List.length_cons]
      congr 1
      omega

theorem parse_loop_from_one (ctx : List Char) (pos : Nat) (f : formatter)
    (hlen : 1 + ctx.length < 2 ^ 64) :
    formatter.parse_loop ctx 1 pos f
      = ({ column_separator := f.column_separator,
           row_separator := ((ctx.takeWhile (fun ch => ch != '}'))[0]?).getD f.row_separator },
         pos + (ctx.takeWhile (fun ch => ch != '}')).length) := by
  cases ctx with
  | nil => simp [formatter.parse_loop, formatter_eta]
  | cons ch rest =>
    simp only [List.length_cons] at hlen
    by_cases h : ch = '}'
    · subst h
      simp [formatter.parse_loop, formatter_eta]
    · have hb : (ch != '}') = true := by simpa using h
      rw [formatter.parse_loop, if_neg h, size_t_of_lt (by omega),
        parse_loop_from_two rest 2 (pos + 1) _ (le_refl 2) (by omega),
        List.takeWhile_cons, if_pos hb]
      simp
      omega

theorem parse_loop_from_zero (ctx : List Char) (pos : Nat) (f : formatter)
    (hlen : ctx.length < 2 ^ 64) :
    formatter.parse_loop ctx 0 pos f
      = ({ column_separator :=
             ((ctx.takeWhile (fun ch => ch != '}'))[0]?).getD f.column_separator,
           row_separator := ((ctx.takeWhile (fun ch => ch != '}'))[1]?).getD f.row_separator },
         pos + (ctx.takeWhile (fun ch => ch != '}')).length) := by
  cases ctx with
  | nil => simp [formatter.parse_loop, formatter_eta]
  | cons ch rest =>
    simp only [List.length_cons] at hlen
    by_cases h : ch = '}'
    · subst h
      simp [formatter.parse_loop, formatter_eta]
    · have hb : (ch != '}') = true := by simpa using h
      rw [formatter.parse_loop, if_neg h, size_t_of_lt (by omega),
        parse_loop_from_one rest (pos + 1) _ (by omega), List.takeWhile_cons, if_pos hb]
      simp
      omega

/-- C20: `parse` on a parse context `ctx`, with `s` the characters before the
first closing brace or the end, leaves the column separator `s[0]` when `s` has a
character and `','` otherwise, the row separator `s[1]` when `s` has two
characters and the line break otherwise, whatever the further characters, and
returns the position of the first closing brace or the end; `format` then emits
exactly the text of `to_string` with these two separators.  The context is a
character range in memory, so shorter than `2 ^ 64`. -/
theorem formatter_parse_format (ctx : List Char) (mem : List Int) (m : matrix_view)
    (out : List Char) (hlen : ctx.length < 2 ^ 64) :
    (formatter.parse { column_separator := ',', row_separator := '\n' } ctx).1
      = { column_separator := ((ctx.takeWhile (fun ch => ch != '}'))[0]?).getD ',',
          row_separator := ((ctx.takeWhile (fun ch => ch != '}'))[1]?).getD '\n' } ∧
    (formatter.parse { column_separator := ',', row_separator := '\n' } ctx).2
      = (ctx.takeWhile (fun ch => ch != '}')).length ∧
    ((ctx.takeWhile (fun ch => ch != '}')).length = ctx.length ∨
      ctx[(ctx.takeWhile (fun ch => ch != '}')).length]? = some '}') ∧
    (∀ ch, ch ∈ ctx.takeWhile (fun ch => ch != '}') → ch ≠ '}') ∧
    ctx.take (ctx.takeWhile (fun ch => ch != '}')).length
      = ctx.takeWhile (fun ch => ch != '}') ∧
    (formatter.parse { column_separator := ',', row_separator := '\n' } ctx).1.format mem m out
      = (to_string mem m (((ctx.takeWhile (fun ch => ch != '}'))[0]?).getD ',')
          (((ctx.takeWhile (fun ch => ch != '}'))[1]?).getD '\n')).map
          (fun text => out ++ text) := by
  have hp := parse_loop_from_zero ctx 0 { column_separator := ',', row_separator := '\n' } hlen
  rw [Nat.zero_add] at hp
  have h1 : (formatter.parse { column_separator := ',', row_separator := '\n' } ctx).1
      = { column_separator := ((ctx.takeWhile (fun ch => ch != '}'))[0]?).getD ',',
          row_separator := ((ctx.takeWhile (fun ch => ch != '}'))[1]?).getD '\n' } := by
    rw [formatter.parse, hp]
  refine ⟨h1, by rw [formatter.parse, hp], takeWhile_stops ctx, ?_, ?_, ?_⟩
  · intro ch hch
    have := List.mem_takeWhile_imp hch
    simpa using this
  · have h := List.takeWhile_append_dropWhile (fun ch => ch != '}') ctx
    have h2 := List.take_left (ctx.takeWhile (fun ch => ch != '}'))
      (ctx.dropWhile (fun ch => ch != '}'))
    rw [h] at h2
    exact h2
  · rw [h1, formatter.format]
    cases to_string mem m (((ctx.takeWhile (fun ch => ch != '}'))[0]?).getD ',')
        (((ctx.takeWhile (fun ch => ch != '}'))[1]?).getD '\n') <;> rfl

/-- Witness of C20: the format spec `|;x` before the closing brace gives the
column separator `|`, the row separator `;` and the position 3. -/
theorem formatter_parse_format_witness :
    ['|', ';', 'x', '}', 'y'].length < 2 ^ 64 ∧
    (formatter.parse { column_separator := ',', row_separator := '\n' }
        ['|', ';', 'x', '}', 'y']).1
      = { column_separator := '|', row_separator := ';' } ∧
    (formatter.parse { column_separator := ',', row_separator := '\n' }
        ['|', ';', 'x', '}', 'y']).2 = 3 :=
  ⟨by decide,
   (formatter_parse_format ['|', ';', 'x', '}', 'y'] [] (matrix_view.ctor 0 0 0
      LayoutPolicy.layout_right) [] (by decide)).1,
   (formatter_parse_format ['|', ';', 'x', '}', 'y'] [] (matrix_view.ctor 0 0 0
      LayoutPolicy.layout_right) [] (by decide)).2.1⟩
